import Mathlib

/-!
Verification development for the rain BitTorrent client core.

The Go sources under scrutiny are embedded shallowly:

* `internal/downloader/piecedownloader/piecedownloader.go` — the per-(peer, piece)
  block-download state machine (`PieceDownloader`, `Run`, `nextBlock`, `allDone`,
  `assembleBlocks`).
* `internal/infodownloader/infodownloader.go` — the metadata download state
  machine (`InfoDownloader`, `createBlocks`, `RequestBlocks`, `GotBlock`).
* `torrent/internal/peerconn/peer.go` — the peer connection wrapper (`Close`, `Run`).
* `session/session.go` (`tickUnchoke`) and `session/run.go` (the torrent event
  loop: `startPeer`, `closePeer`, `dialAddresses`, `checkCompletion`,
  `chokePeer`, `unchokePeer`, the `pieceWriterResultC` branch, admission of
  incoming connections).

Goroutine channels are modelled by explicit state (a buffered token channel
becomes an optional token counter; closing a closed channel is a panic value),
and the single-threaded event loops become step functions over explicit state.
Machine integers are modelled as `Nat`; none of the embedded arithmetic can
overflow in the source (counters and lengths are far below 2^63), so no
modular reduction is inserted.
-/

namespace Rain

/-! ## Piece downloader (`internal/downloader/piecedownloader/piecedownloader.go`) -/

/-- Source constant `maxQueuedBlocks = 10`. -/
def maxQueuedBlocks : Nat := 10

/-- Block size used throughout the client (16 KiB). -/
def pieceBlockSize : Nat := 16384

/-- Modelled from the spec: the `piece.Block` structure (package `internal/piece`
is not part of the sources). §3: "Block B_{i,j}. Offset within piece, length
≤ 16 KiB"; blocks are 16 KiB, the last may be shorter. -/
structure PieceBlock where
  Index : Nat
  Begin : Nat
  Length : Nat
deriving DecidableEq, Repr

/-- Modelled from the spec: the number of blocks of a piece of length `len` —
`len` divided by 16 KiB, rounded up (spec §3). -/
def numPieceBlocks (len : Nat) : Nat := (len + pieceBlockSize - 1) / pieceBlockSize

/-- Modelled from the spec: the block list of a piece — 16 KiB chunks in
ascending order, the last chunk shorter when the length is not a multiple of
16 KiB (spec §3). `j` is the index of the first block produced and `fuel` the
number of blocks still to produce. -/
def pieceBlocksGo : Nat → Nat → Nat → List PieceBlock
  | _, 0, _ => []
  | j, fuel + 1, len =>
    if len ≤ pieceBlockSize then [⟨j, j * pieceBlockSize, len⟩]
    else ⟨j, j * pieceBlockSize, pieceBlockSize⟩ :: pieceBlocksGo (j + 1) fuel (len - pieceBlockSize)

/-- Modelled from the spec: blocks of a piece of length `len`. -/
def pieceBlocks (len : Nat) : List PieceBlock := pieceBlocksGo 0 (numPieceBlocks len) len

/-- The per-block record of the downloader: `type block struct { *piece.Block;
requested bool; data []byte }`. Bytes are modelled as natural numbers. -/
structure DLBlock where
  Block : PieceBlock
  requested : Bool
  data : Option (List Nat)
deriving DecidableEq, Repr

/-- State of a `PieceDownloader`. The `limiter` channel (`chan struct{}` of
capacity `maxQueuedBlocks`) is modelled by `Option Nat`: `some t` is an open
channel currently holding `t` tokens, `none` is the nil channel (after
`d.limiter = nil`). The peer, the result channels and the stop channel are
represented by the step outputs below. -/
structure PieceDownloader where
  pieceIndex : Nat
  pieceLength : Nat
  blocks : List DLBlock
  limiter : Option Nat
deriving DecidableEq, Repr

/-- Source `New`: every block starts not requested and without data, the
limiter channel is fresh (zero tokens buffered). -/
def newPieceDownloader (idx len : Nat) : PieceDownloader :=
  { pieceIndex := idx
    pieceLength := len
    blocks := (pieceBlocks len).map (fun b => { Block := b, requested := false, data := none })
    limiter := some 0 }

/-- Inputs of the `Run` select loop. `tick` is the `d.limiter <- struct{}{}`
branch becoming ready (scheduler-chosen); the other four are receives on
`PieceC`, `RejectC`, `ChokeC`, `UnchokeC` and `stopC`. A piece or reject input
carries the index of the targeted block (`p.Block.Index` resp.
`req.Piece.Index` in the source) and, for pieces, the raw data. -/
inductive PDInput
  | tick
  | piece (blockIndex : Nat) (data : List Nat)
  | reject (blockIndex : Nat)
  | choke
  | unchoke
  | stop
deriving DecidableEq, Repr

/-- Observable outputs of one transition: a wire request
(`d.Peer.SendRequest(index, begin, length)`), the buffer emitted on `DoneC`,
the error emitted on `ErrC`, and `d.Peer.Close()`. -/
inductive PDOutput
  | request (pieceIndex blockBegin blockLength : Nat)
  | done (buf : List Nat)
  | errored
  | closedPeer
deriving DecidableEq, Repr

/-- How a transition left the goroutine: still looping, returned after `DoneC`,
returned after `ErrC`, returned on `stopC`, a runtime panic (out-of-range
index), or blocked forever on an empty limiter receive. -/
inductive PDStatus
  | running
  | finished
  | failed
  | stopped
  | panicked
  | blockedForever
deriving DecidableEq, Repr

/-- Source `nextBlock`: find the first block with `!requested`, mark it
requested, and return it (`none` when every block is already requested). -/
def nextBlock : List DLBlock → Option (List DLBlock × PieceBlock)
  | [] => none
  | b :: rest =>
    if b.requested then
      match nextBlock rest with
      | none => none
      | some (rest', blk) => some (b :: rest', blk)
    else some ({ b with requested := true } :: rest, b.Block)

/-- Source `allDone`: every block has data. -/
def allDone (blocks : List DLBlock) : Bool :=
  blocks.all (fun b => b.data.isSome)

/-- Source `assembleBlocks`: write each block's data into one buffer in block
order (a `nil` slice contributes nothing, as with `bytes.Buffer.Write`). -/
def assembleBlocks (blocks : List DLBlock) : List Nat :=
  blocks.foldl (fun acc b => acc ++ b.data.getD []) []

/-- Token bookkeeping of the `PieceC` branch: when the arriving block was
requested without data and the limiter is non-nil, a token is received from
the limiter (`<-d.limiter`); receiving from an open channel with no buffered
token blocks the goroutine forever (`none`); otherwise the limiter is
unchanged. -/
def drainToken (b : DLBlock) (limiter : Option Nat) : Option (Option Nat) :=
  if b.requested ∧ b.data = none ∧ limiter ≠ none then
    match limiter with
    | some (t + 1) => some (some t)
    | some 0 => none
    | none => some none
  else some limiter

/-- One iteration of the `Run` select loop on the given ready input.
Transcribed case by case from the source:

* limiter send ready (`tick`): only possible when the limiter is non-nil and
  below capacity; then `nextBlock` either marks a block requested and sends the
  wire request, or (all blocks requested) the limiter is set to nil;
* `PieceC`: a token is returned when the block was requested without data and
  the limiter is non-nil (a receive on an empty channel blocks the goroutine
  forever); the data is stored; when all blocks have data, the assembled buffer
  goes out on `DoneC` and the loop returns;
* `RejectC`: a reject for a never-requested block closes the peer and returns
  an error; otherwise the `requested` flag is cleared;
* `ChokeC`: every requested block without data loses its `requested` flag and
  the limiter is set to nil;
* `UnchokeC`: the limiter becomes a fresh empty channel of capacity 10;
* `stopC`: the loop returns. -/
def pdStep (s : PieceDownloader) (inp : PDInput) : PieceDownloader × List PDOutput × PDStatus :=
  match inp with
  | .tick =>
    match s.limiter with
    | none => (s, [], .running)
    | some t =>
      if t < maxQueuedBlocks then
        match nextBlock s.blocks with
        | none => ({ s with limiter := none }, [], .running)
        | some (blocks', blk) =>
          ({ s with blocks := blocks', limiter := some (t + 1) },
            [.request s.pieceIndex blk.Begin blk.Length], .running)
      else (s, [], .running)
  | .piece i data =>
    match s.blocks[i]? with
    | none => (s, [], .panicked)
    | some b =>
      match drainToken b s.limiter with
      | none => (s, [], .blockedForever)
      | some limiter' =>
        let blocks' := s.blocks.set i { b with data := some data }
        if allDone blocks' then
          ({ s with blocks := blocks', limiter := limiter' },
            [.done (assembleBlocks blocks')], .finished)
        else ({ s with blocks := blocks', limiter := limiter' }, [], .running)
  | .reject i =>
    match s.blocks[i]? with
    | none => (s, [], .panicked)
    | some b =>
      if b.requested then
        ({ s with blocks := s.blocks.set i { b with requested := false } }, [], .running)
      else (s, [.closedPeer, .errored], .failed)
  | .choke =>
    ({ s with
        blocks := s.blocks.map (fun b =>
          if b.data = none ∧ b.requested then { b with requested := false } else b)
        limiter := none }, [], .running)
  | .unchoke => ({ s with limiter := some 0 }, [], .running)
  | .stop => (s, [], .stopped)

/-- Run the select loop on a sequence of ready inputs; once a transition leaves
the loop (status other than `running`), the remaining inputs are not consumed. -/
def runPD (s : PieceDownloader) : List PDInput → PieceDownloader × List PDOutput × PDStatus
  | [] => (s, [], .running)
  | inp :: rest =>
    match pdStep s inp with
    | (s', out, .running) =>
      match runPD s' rest with
      | (s'', out', st) => (s'', out ++ out', st)
    | (s', out, st) => (s', out, st)

/-- Predicate of an outstanding block: requested and without data. -/
def outstandingBlock (b : DLBlock) : Bool :=
  b.requested && b.data.isNone

/-- Number of outstanding blocks: requested but no data received yet. -/
def outstanding (s : PieceDownloader) : Nat :=
  (s.blocks.filter outstandingBlock).length

/-- Modelled from the spec (§4.3 Choke): "clear `requested` on all
not-yet-received blocks; disable the slot source. Under FastExt, outstanding
requests for pieces in the peer's AllowedFast set are preserved." This is the
behaviour the specification describes for the choke transition, with the
peer's Fast-extension flag and AllowedFast set as parameters; it is compared
against the transition actually implemented in `pdStep`. -/
def chokeSpecFast (fastExt : Bool) (allowedFast : List Nat) (s : PieceDownloader) :
    PieceDownloader :=
  if fastExt ∧ s.pieceIndex ∈ allowedFast then { s with limiter := none }
  else
    { s with
        blocks := s.blocks.map (fun b =>
          if b.data = none ∧ b.requested then { b with requested := false } else b)
        limiter := none }

/-- Tracks whether the downloader is in a choked phase after consuming an
input (set by `choke`, cleared by `unchoke`). Used only to state which input
sequences the engine can deliver; it does not influence behaviour. -/
def chokedAfter (c : Bool) (inp : PDInput) : Bool :=
  match inp with
  | .choke => true
  | .unchoke => false
  | _ => c

/-- An input trace is engine-deliverable when every `unchoke` arrives while the
downloader is choked: the torrent event loop keeps the choked downloaders in
`pieceDownloadersChoked` and signals `UnchokeC` only for those. `c` is the
current choked phase. -/
def unchokesGuarded (c : Bool) : List PDInput → Bool
  | [] => true
  | inp :: rest =>
    (if inp = .unchoke then c else true) && unchokesGuarded (chokedAfter c inp) rest

/-! ## Info downloader (`internal/infodownloader/infodownloader.go`) -/

/-- Source constant `blockSize = 16 * 1024` of the info downloader. -/
def infoBlockSize : Nat := 16 * 1024

/-- State of an `InfoDownloader`: the metadata buffer, the block sizes computed
by `createBlocks`, the `requested` index set and the `nextBlockIndex` cursor.
The peer is left abstract; the extension messages sent by `RequestBlocks` are
returned as the list of requested block indices. -/
structure InfoDownloader where
  Bytes : List Nat
  blocks : List Nat
  requested : Finset Nat
  nextBlockIndex : Nat
deriving DecidableEq

/-- Source `createBlocks`: `metadataSize / blockSize` full blocks, plus a last
block of size `metadataSize % blockSize` when the remainder is nonzero. -/
def createBlocks (metadataSize : Nat) : List Nat :=
  let numBlocks := metadataSize / infoBlockSize + (if metadataSize % infoBlockSize ≠ 0 then 1 else 0)
  let blocks := List.replicate numBlocks infoBlockSize
  if metadataSize % infoBlockSize ≠ 0 ∧ blocks.length > 0 then
    blocks.dropLast ++ [metadataSize % infoBlockSize]
  else blocks

/-- Source `New`: an `metadataSize`-byte zero buffer, no requested blocks,
cursor at zero. -/
def newInfoDownloader (metadataSize : Nat) : InfoDownloader :=
  { Bytes := List.replicate metadataSize 0
    blocks := createBlocks metadataSize
    requested := ∅
    nextBlockIndex := 0 }

/-- Source `RequestBlocks(queueLength)`: while the cursor is below the block
count and fewer than `queueLength` blocks are in the requested set, send a
`ut_metadata` request for the cursor index, record it and advance the cursor.
Returns the new state and the indices requested, in issue order. -/
def RequestBlocks (d : InfoDownloader) (queueLength : Nat) : InfoDownloader × List Nat :=
  if hlt : d.nextBlockIndex < d.blocks.length ∧ d.requested.card < queueLength then
    have : d.blocks.length - (d.nextBlockIndex + 1) < d.blocks.length - d.nextBlockIndex := by omega
    let d' : InfoDownloader :=
      { d with
          requested := insert d.nextBlockIndex d.requested
          nextBlockIndex := d.nextBlockIndex + 1 }
    let rec' := RequestBlocks d' queueLength
    (rec'.1, d.nextBlockIndex :: rec'.2)
  else (d, [])
termination_by d.blocks.length - d.nextBlockIndex
decreasing_by omega

/-- Source `GotBlock(index, data)`: reject an index that was not requested and
data of the wrong size; otherwise clear the index from the requested set and
copy the data into the buffer at `index * blockSize`. -/
def GotBlock (d : InfoDownloader) (index : Nat) (data : List Nat) : Except String InfoDownloader :=
  if index ∉ d.requested then .error "peer sent unrequested index for metadata message"
  else
    let size := d.blocks.getD index 0
    if data.length ≠ size then .error "peer sent invalid size for metadata message"
    else
      .ok { d with
              requested := d.requested.erase index
              Bytes := (d.Bytes.take (index * infoBlockSize)) ++ data
                ++ d.Bytes.drop (index * infoBlockSize + size) }

/-! ## Peer connection (`torrent/internal/peerconn/peer.go`)

`Close` closes `closeC` and waits on `closedC`; `Run` starts the reader and
writer tasks and, in each branch of its select, closes the connection and
waits for both tasks before the deferred `close(closedC)`. The concurrent
system is modelled as a labelled transition system: channel closedness and
task exits are booleans, `Run`'s control point is a phase. -/

/-- Control point of the `Run` goroutine: waiting in the select; after the
`closeC` branch fired, waiting for the reader then the writer; after the
reader exited first, waiting for the writer; after the writer exited first,
waiting for the reader; done (deferred `close(closedC)` executed). -/
inductive RunPhase
  | selectWait
  | closedWaitReader
  | closedWaitWriter
  | readerWaitWriter
  | writerWaitReader
  | donePhase
deriving DecidableEq, Repr

/-- State of one peer connection: whether `closeC` was closed (by `Close`),
whether the reader/writer tasks have exited, whether `conn.Close()` ran,
whether `closedC` was closed, and `Run`'s control point. -/
structure PeerConnState where
  closeCClosed : Bool
  readerExited : Bool
  writerExited : Bool
  connClosed : Bool
  closedCClosed : Bool
  phase : RunPhase
deriving DecidableEq, Repr

/-- Fresh peer connection as built by `New` with `Run` started. -/
def peerConnInit : PeerConnState :=
  { closeCClosed := false, readerExited := false, writerExited := false
    connClosed := false, closedCClosed := false, phase := .selectWait }

/-- Actions of the concurrent system: a call to `Close` (which executes
`close(p.closeC)` — a panic when the channel is already closed), spontaneous
exits of the reader and writer tasks, and the steps of the `Run` goroutine
(each enabled only at its control point with its wait condition met; a
disabled action does not change the state). -/
inductive PCAction
  | closeCall
  | readerExit
  | writerExit
  | runSelectClose
  | runSelectReader
  | runSelectWriter
  | runAwaitReader
  | runAwaitWriter
deriving DecidableEq, Repr

/-- One transition. `Except` carries the panic raised by `close` of an
already-closed channel. -/
def pcStep (s : PeerConnState) (a : PCAction) : Except String PeerConnState :=
  match a with
  | .closeCall =>
    if s.closeCClosed then .error "close of closed channel"
    else .ok { s with closeCClosed := true }
  | .readerExit => .ok { s with readerExited := true }
  | .writerExit => .ok { s with writerExited := true }
  | .runSelectClose =>
    if s.phase = .selectWait ∧ s.closeCClosed then
      .ok { s with connClosed := true, phase := .closedWaitReader }
    else .ok s
  | .runSelectReader =>
    if s.phase = .selectWait ∧ s.readerExited then
      .ok { s with connClosed := true, phase := .readerWaitWriter }
    else .ok s
  | .runSelectWriter =>
    if s.phase = .selectWait ∧ s.writerExited then
      .ok { s with connClosed := true, phase := .writerWaitReader }
    else .ok s
  | .runAwaitReader =>
    if s.phase = .closedWaitReader ∧ s.readerExited then
      .ok { s with phase := .closedWaitWriter }
    else if s.phase = .writerWaitReader ∧ s.readerExited then
      .ok { s with phase := .donePhase, closedCClosed := true }
    else .ok s
  | .runAwaitWriter =>
    if s.phase = .closedWaitWriter ∧ s.writerExited then
      .ok { s with phase := .donePhase, closedCClosed := true }
    else if s.phase = .readerWaitWriter ∧ s.writerExited then
      .ok { s with phase := .donePhase, closedCClosed := true }
    else .ok s

/-- Run a sequence of actions from a state, stopping at the first panic. -/
def pcRun (s : PeerConnState) : List PCAction → Except String PeerConnState
  | [] => .ok s
  | a :: rest =>
    match pcStep s a with
    | .ok s' => pcRun s' rest
    | .error e => .error e

/-! ## Session peers and the choke scheduler (`session/session.go`, `session/run.go`)

A connected peer (`internal/peer.Peer`, held in the engine's `peers` map) is
modelled by the fields the embedded session code reads and writes. `handle` is
the object identity (the Go map key is the pointer), `pid` the 20-byte remote
peer ID, `ip` the remote IP string; both are modelled as naturals. Per the
spec (§3) a fresh peer starts with `AmChoking = true` and both interest flags
false. The field name `BytesDownlaodedInChokePeriod` reproduces the source
spelling. -/
structure Peer where
  handle : Nat
  pid : Nat
  ip : Nat
  AmChoking : Bool
  PeerInterested : Bool
  OptimisticUnchoked : Bool
  BytesDownlaodedInChokePeriod : Nat
  BytesUploadedInChokePeriod : Nat
deriving DecidableEq, Repr

/-- Messages the embedded session code sends to a peer (only the ones the
claims observe are logged). -/
inductive SessionMsg
  | unchokeMsg (handle : Nat)
  | chokeMsg (handle : Nat)
  | firstMessage (handle : Nat)
deriving DecidableEq, Repr

/-- Ranking key of `tickUnchoke`: bytes uploaded in the choke period when the
torrent is completed (seeding), bytes downloaded otherwise (leeching). -/
def chokeKey (completed : Bool) (pe : Peer) : Nat :=
  if completed then pe.BytesUploadedInChokePeriod else pe.BytesDownlaodedInChokePeriod

/-- Considered by the regular unchoke: interested and not optimistically
unchoked. -/
def consideredPeer (pe : Peer) : Bool :=
  pe.PeerInterested && !pe.OptimisticUnchoked

/-- Sorting relation of `tickUnchoke`: `a` precedes `b` when `a`'s period key
is at least `b`'s (the source's `sort.Slice` uses the strict `>` as its less
function, producing a non-increasing order). -/
def chokeGE (completed : Bool) (a b : Peer) : Prop :=
  chokeKey completed b ≤ chokeKey completed a

instance (completed : Bool) : DecidableRel (chokeGE completed) :=
  fun a b => inferInstanceAs (Decidable (chokeKey completed b ≤ chokeKey completed a))

instance (completed : Bool) : IsTotal Peer (chokeGE completed) :=
  ⟨fun a b => (Nat.le_total (chokeKey completed b) (chokeKey completed a)).imp id id⟩

instance (completed : Bool) : IsTrans Peer (chokeGE completed) :=
  ⟨fun _ _ _ h1 h2 => Nat.le_trans h2 h1⟩

/-- Source `tickUnchoke`: gather the interested, non-optimistic peers, sort
them by the period key in descending order, reset both period counters on every
peer, unchoke the first `unchokedPeers` of the sorted list (clearing their
optimistic flag) and choke the rest. `sort.Slice` is realised by insertion
sort, a valid implementation of its contract; peers are addressed by handle.
The accompanying Choke/Unchoke wire messages (sent by `chokePeer` /
`unchokePeer` only on a state change) are not logged here. -/
def tickUnchoke (unchokedPeers : Nat) (completed : Bool) (peers : List Peer) : List Peer :=
  let considered := peers.filter consideredPeer
  let sorted := considered.insertionSort (chokeGE completed)
  let unchokedIds := (sorted.take unchokedPeers).map Peer.handle
  let chokedIds := (sorted.drop unchokedPeers).map Peer.handle
  peers.map (fun pe =>
    let pe := { pe with BytesDownlaodedInChokePeriod := 0, BytesUploadedInChokePeriod := 0 }
    if pe.handle ∈ unchokedIds then
      { pe with AmChoking := false, OptimisticUnchoked := false }
    else if pe.handle ∈ chokedIds then { pe with AmChoking := true }
    else pe)

/-- The per-peer transformation applied by `tickUnchoke`, exposed for
reasoning: `tickUnchoke u c ps = ps.map (tickUnchokeF u c ps)` holds by
definition. -/
def tickUnchokeF (unchokedPeers : Nat) (completed : Bool) (peers : List Peer) (pe : Peer) :
    Peer :=
  let considered := peers.filter consideredPeer
  let sorted := considered.insertionSort (chokeGE completed)
  let unchokedIds := (sorted.take unchokedPeers).map Peer.handle
  let chokedIds := (sorted.drop unchokedPeers).map Peer.handle
  let pe := { pe with BytesDownlaodedInChokePeriod := 0, BytesUploadedInChokePeriod := 0 }
  if pe.handle ∈ unchokedIds then
    { pe with AmChoking := false, OptimisticUnchoked := false }
  else if pe.handle ∈ chokedIds then { pe with AmChoking := true }
  else pe

/-! ## Torrent event loop (`session/run.go`)

The engine state keeps the fields the claims are about: the bitfield (as the
set of piece indices whose bit is set), the peer containers, the handshaker
bookkeeping, the address list and the completion flag. The handshaker lists
hold the remote IPs of handshakes that have been started and whose result has
not yet been delivered to the loop. Channels, timers, counters, the piece
picker and the downloader maps are outside the modelled fields; the event-loop
branches that only touch those (stats/speed ticks, announcer requests, command
responses, snubbed signals, allocator/verifier progress) are represented by
the no-op `otherEvent`. The model covers the Running phase: the bitfield
exists and allocation/verification are over. -/
structure EngineConfig where
  maxPeerAccept : Nat
  maxPeerDial : Nat
  unchokedPeers : Nat
  numPieces : Nat
  blocked : List Nat
deriving DecidableEq, Repr

/-- Engine state (the fields of `session/torrent.go` the claims mention). -/
structure EngineState where
  bitfield : Finset Nat
  peers : List Peer
  incomingPeers : List Nat
  outgoingPeers : List Nat
  peerIDs : Finset Nat
  connectedPeerIPs : Finset Nat
  incomingHandshakers : List Nat
  outgoingHandshakers : List Nat
  addrList : List Nat
  completed : Bool
  nextHandle : Nat
  sent : List SessionMsg
deriving DecidableEq

/-- Engine state at the start of the Running phase with an empty bitfield. -/
def engineInit : EngineState :=
  { bitfield := ∅, peers := [], incomingPeers := [], outgoingPeers := []
    peerIDs := ∅, connectedPeerIPs := ∅
    incomingHandshakers := [], outgoingHandshakers := []
    addrList := [], completed := false, nextHandle := 0, sent := [] }

/-- Source `dialAddresses` loop body: while outgoing peers plus outgoing
handshakers are below `MaxPeerDial`, pop an address; stop when the list is
empty; skip addresses whose IP is already connected; otherwise start an
outgoing handshaker and reserve the IP. `fuel` bounds the number of pops; it
is instantiated with the length of the address list, which each iteration
shortens by one, so the loop runs exactly as in the source. -/
def dialLoop (cfg : EngineConfig) : Nat → EngineState → EngineState
  | 0, s => s
  | fuel + 1, s =>
    if s.outgoingPeers.length + s.outgoingHandshakers.length < cfg.maxPeerDial then
      match s.addrList with
      | [] => s
      | ip :: rest =>
        if ip ∈ s.connectedPeerIPs then dialLoop cfg fuel { s with addrList := rest }
        else
          dialLoop cfg fuel
            { s with
                addrList := rest
                outgoingHandshakers := s.outgoingHandshakers ++ [ip]
                connectedPeerIPs := insert ip s.connectedPeerIPs }
    else s

/-- Source `dialAddresses`: a completed torrent dials nobody. -/
def dialAddresses (cfg : EngineConfig) (s : EngineState) : EngineState :=
  if s.completed then s else dialLoop cfg s.addrList.length s

/-- The map removals of source `closePeer`: drop the peer from `peers` and the
side containers, and delete its peer ID and its IP (the downloader maps, the
piece picker and PEX are outside the modelled fields). A handle not present in
`peers` identifies no live peer task and removes nothing. -/
def closePeerMaps (h : Nat) (s : EngineState) : EngineState :=
  match s.peers.find? (fun p => p.handle == h) with
  | none => s
  | some p =>
    { s with
        peers := s.peers.filter (fun q => q.handle ≠ h)
        incomingPeers := s.incomingPeers.erase h
        outgoingPeers := s.outgoingPeers.erase h
        peerIDs := s.peerIDs.erase p.pid
        connectedPeerIPs := s.connectedPeerIPs.erase p.ip }

/-- Source `closePeer`: remove the peer from the maps, then `dialAddresses`. -/
def closePeer (cfg : EngineConfig) (h : Nat) (s : EngineState) : EngineState :=
  dialAddresses cfg (closePeerMaps h s)

/-- Source `unchokePeer` applied to the peer with the given handle: when it is
choked, clear `AmChoking` and send an Unchoke message. -/
def unchokePeerByHandle (h : Nat) (s : EngineState) : EngineState :=
  match s.peers.find? (fun p => p.handle == h) with
  | none => s
  | some p =>
    if p.AmChoking then
      { s with
          peers := s.peers.map (fun q => if q.handle == h then { q with AmChoking := false } else q)
          sent := s.sent ++ [.unchokeMsg h] }
    else s

/-- Peer record as source `startPeer` constructs it: choking, not interested,
zeroed counters. -/
def freshPeer (pid ip h : Nat) : Peer :=
  { handle := h, pid := pid, ip := ip, AmChoking := true, PeerInterested := false
    OptimisticUnchoked := false, BytesDownlaodedInChokePeriod := 0
    BytesUploadedInChokePeriod := 0 }

/-- Bookkeeping part of the source `startPeer`: record the peer in every map,
using a fresh handle. -/
def startPeerAdd (pid ip : Nat) (incoming : Bool) (s : EngineState) : EngineState :=
  { s with
      peerIDs := insert pid s.peerIDs
      peers := s.peers ++ [freshPeer pid ip s.nextHandle]
      incomingPeers :=
        if incoming then s.incomingPeers ++ [s.nextHandle] else s.incomingPeers
      outgoingPeers :=
        if incoming then s.outgoingPeers else s.outgoingPeers ++ [s.nextHandle]
      nextHandle := s.nextHandle + 1
      sent := s.sent ++ [.firstMessage s.nextHandle] }

/-- Source `startPeer`: a duplicate peer ID closes the connection, drops the
address from PEX (unmodelled) and redials; otherwise the ID is recorded, the
peer is registered in `peers` and its side container with a fresh handle,
`sendFirstMessage` runs, and when the number of connected peers after
registration is at most 4 the peer is unchoked immediately. -/
def startPeer (cfg : EngineConfig) (pid ip : Nat) (incoming : Bool) (s : EngineState) :
    EngineState :=
  if pid ∈ s.peerIDs then dialAddresses cfg s
  else
    let s1 := startPeerAdd pid ip incoming s
    if s1.peers.length ≤ 4 then unchokePeerByHandle s.nextHandle s1 else s1

/-- Source `checkCompletion`: nothing to do when already completed or when some
bit is still unset; otherwise mark completed, close every peer that is not
interested (outgoing handshakers are closed — their pending results still
arrive and are handled by the result branch) and reset the address list. -/
def checkCompletion (cfg : EngineConfig) (s : EngineState) : EngineState :=
  if s.completed then s
  else if (List.range cfg.numPieces).all (fun i => i ∈ s.bitfield) then
    let s1 := { s with completed := true }
    let toClose := (s1.peers.filter (fun p => !p.PeerInterested)).map Peer.handle
    let s2 := toClose.foldl (fun st h => closePeer cfg h st) s1
    { s2 with addrList := [] }
  else s

/-- Modelled from the spec: `t.stop` is not among the sources; per the spec's
lifecycle (§3), Stopping closes the peers (the announcer and timer teardown
touches no modelled field). -/
def stopTorrent (s : EngineState) : EngineState :=
  (s.peers.map Peer.handle).foldl (fun st h => closePeerMaps h st) s

/-- Events of the `run` select loop that touch the modelled fields. Handshake
results identify the handshaker by its remote IP and carry the handshaked peer
ID. `peerInterestedMsg` stands for the Interested/NotInterested handling of
`handlePeerMessage` (modelled from the spec §3, the function is not among the
sources); `otherEvent` covers the branches that touch no modelled field. -/
inductive EngineEvent
  | incomingConn (ip : Nat)
  | incomingHSResult (ip pid : Nat) (ok : Bool)
  | outgoingHSResult (ip pid : Nat) (ok : Bool)
  | peerDisconnected (h : Nat)
  | pieceWriterResult (idx : Nat) (ok : Bool)
  | newAddrs (addrs : List Nat)
  | unchokeTick
  | peerInterestedMsg (h : Nat) (v : Bool)
  | stopCommand
  | otherEvent
deriving DecidableEq, Repr

/-- One dispatch of the event loop. The `Except` error is the
`panic("already have the piece")` of the `pieceWriterResultC` branch. Branch by
branch from `run` in `session/run.go`:

* `incomingConnC`: reject when over `MaxPeerAccept`, blocklisted, or a
  duplicate IP; otherwise start an incoming handshaker and reserve the IP;
* handshaker results: the handshaker is removed from its container; a failed
  handshake releases the IP (the outgoing path also redials); a successful one
  reaches `startPeer`. A result is only delivered for a started handshake,
  hence the membership guard;
* `peerDisconnectedC`: `closePeer`;
* `pieceWriterResultC`: a write error stops the torrent; a success panics when
  the bit is already set, otherwise sets the bit (the Have broadcast and the
  interest updates touch no modelled field) and runs `checkCompletion`;
* `addrsFromTrackers`/`addPeersCommandC`/`dhtPeersC`: push the addresses and
  dial unless completed;
* `unchokeTimerC`: `tickUnchoke`;
* `stopCommandC`: stop. -/
def engineStep (cfg : EngineConfig) (e : EngineEvent) (s : EngineState) :
    Except String EngineState :=
  match e with
  | .incomingConn ip =>
    if cfg.maxPeerAccept ≤ s.incomingHandshakers.length + s.incomingPeers.length then .ok s
    else if ip ∈ cfg.blocked then .ok s
    else if ip ∈ s.connectedPeerIPs then .ok s
    else
      .ok { s with
              incomingHandshakers := s.incomingHandshakers ++ [ip]
              connectedPeerIPs := insert ip s.connectedPeerIPs }
  | .incomingHSResult ip pid ok =>
    if ip ∈ s.incomingHandshakers then
      let s1 := { s with incomingHandshakers := s.incomingHandshakers.erase ip }
      if ok then .ok (startPeer cfg pid ip true s1)
      else .ok { s1 with connectedPeerIPs := s1.connectedPeerIPs.erase ip }
    else .ok s
  | .outgoingHSResult ip pid ok =>
    if ip ∈ s.outgoingHandshakers then
      let s1 := { s with outgoingHandshakers := s.outgoingHandshakers.erase ip }
      if ok then .ok (startPeer cfg pid ip false s1)
      else .ok (dialAddresses cfg { s1 with connectedPeerIPs := s1.connectedPeerIPs.erase ip })
    else .ok s
  | .peerDisconnected h => .ok (closePeer cfg h s)
  | .pieceWriterResult idx ok =>
    if ok then
      if idx ∈ s.bitfield then .error "already have the piece"
      else .ok (checkCompletion cfg { s with bitfield := insert idx s.bitfield })
    else .ok (stopTorrent s)
  | .newAddrs addrs =>
    if s.completed then .ok s
    else .ok (dialAddresses cfg { s with addrList := s.addrList ++ addrs })
  | .unchokeTick =>
    .ok { s with peers := tickUnchoke cfg.unchokedPeers s.completed s.peers }
  | .peerInterestedMsg h v =>
    .ok { s with
            peers := s.peers.map (fun p =>
              if p.handle == h then { p with PeerInterested := v } else p) }
  | .stopCommand => .ok (stopTorrent s)
  | .otherEvent => .ok s

/-- Run the event loop over a list of events from a state. -/
def runEngineFrom (cfg : EngineConfig) (s : EngineState) :
    List EngineEvent → Except String EngineState
  | [] => .ok s
  | e :: es =>
    match engineStep cfg e s with
    | .ok s' => runEngineFrom cfg s' es
    | .error m => .error m

/-- Run the event loop from the initial Running state. -/
def runEngine (cfg : EngineConfig) (es : List EngineEvent) : Except String EngineState :=
  runEngineFrom cfg engineInit es

/-- The mutual consistency of the engine maps stated by the spec: every
connected peer's ID is in `peerIDs` and its IP in `connectedPeerIPs`; every
recorded ID belongs to a connected peer; and distinct connected peers have
distinct identities, IDs and IPs (so a peer is in `peers` exactly when its ID
and IP are recorded, and removal never strips another peer's entries). -/
def mapsConsistent (s : EngineState) : Prop :=
  (∀ p ∈ s.peers, p.pid ∈ s.peerIDs ∧ p.ip ∈ s.connectedPeerIPs) ∧
  (∀ id ∈ s.peerIDs, ∃ p ∈ s.peers, p.pid = id) ∧
  s.peers.Pairwise (fun p q => p.handle ≠ q.handle ∧ p.pid ≠ q.pid ∧ p.ip ≠ q.ip)

/-- Full inductive invariant of the event loop: the map consistency, the
freshness of `nextHandle`, and the handshaker bookkeeping — every in-flight
handshaker IP is reserved in `connectedPeerIPs`, belongs to no connected peer,
and in-flight IPs are pairwise distinct. -/
def engineInv (s : EngineState) : Prop :=
  mapsConsistent s ∧
  (∀ p ∈ s.peers, p.handle < s.nextHandle) ∧
  (∀ ip ∈ s.incomingHandshakers ++ s.outgoingHandshakers,
    ip ∈ s.connectedPeerIPs ∧ ∀ p ∈ s.peers, p.ip ≠ ip) ∧
  (s.incomingHandshakers ++ s.outgoingHandshakers).Nodup

/-! ## Concrete states used as counterexample inputs -/

/-- A downloader for a one-block piece of length 5 with its single block
requested and one request token held. -/
def pdChokeCexState : PieceDownloader :=
  { pieceIndex := 0
    pieceLength := 5
    blocks := [{ Block := { Index := 0, Begin := 0, Length := 5 }, requested := true, data := none }]
    limiter := some 1 }

/-- An input trace for an 11-block piece: ten limiter ticks fill the pipeline,
a spurious Unchoke (no Choke in force) replaces the token channel with a fresh
empty one, and one further tick requests an eleventh block. -/
def pdElevenTrace : List PDInput :=
  [.tick, .tick, .tick, .tick, .tick, .tick, .tick, .tick, .tick, .tick, .unchoke, .tick]

/-- A complete interaction with a peer connection: `Close` is called, `Run`
takes its `closeC` branch, both tasks exit and are awaited, so the deferred
`close(closedC)` runs and the `Close` call returns. -/
def pcFullCloseTrace : List PCAction :=
  [.closeCall, .runSelectClose, .readerExit, .runAwaitReader, .writerExit, .runAwaitWriter]

/-- The four interested peers of the spec's regular-unchoke scenario, with
download-period bytes 3000, 1000, 4000 and 2000. -/
def examplePeers : List Peer :=
  [{ handle := 1, pid := 1, ip := 1, AmChoking := true, PeerInterested := true,
     OptimisticUnchoked := false, BytesDownlaodedInChokePeriod := 3000,
     BytesUploadedInChokePeriod := 0 },
   { handle := 2, pid := 2, ip := 2, AmChoking := true, PeerInterested := true,
     OptimisticUnchoked := false, BytesDownlaodedInChokePeriod := 1000,
     BytesUploadedInChokePeriod := 0 },
   { handle := 3, pid := 3, ip := 3, AmChoking := true, PeerInterested := true,
     OptimisticUnchoked := false, BytesDownlaodedInChokePeriod := 4000,
     BytesUploadedInChokePeriod := 0 },
   { handle := 4, pid := 4, ip := 4, AmChoking := true, PeerInterested := true,
     OptimisticUnchoked := false, BytesDownlaodedInChokePeriod := 2000,
     BytesUploadedInChokePeriod := 0 }]

/-- Whether an output is a `DoneC` emission. -/
def isDoneOut : PDOutput → Bool
  | .done _ => true
  | _ => false

/-- Components form of the pipeline invariant, parametrised by the choked
phase `c`: at most `maxQueuedBlocks` blocks are outstanding; when the limiter
channel is open it holds one token per outstanding block, at most its
capacity; while choked the limiter is nil and nothing is outstanding. -/
def pdInvParts (c : Bool) (bl : List DLBlock) (lim : Option Nat) : Prop :=
  (bl.filter outstandingBlock).length ≤ maxQueuedBlocks ∧
  (∀ t, lim = some t → (bl.filter outstandingBlock).length ≤ t ∧ t ≤ maxQueuedBlocks) ∧
  (c = true → lim = none ∧ (bl.filter outstandingBlock).length = 0)

/-- Invariant of the piece-downloader pipeline. -/
def pdInv (c : Bool) (s : PieceDownloader) : Prop :=
  pdInvParts c s.blocks s.limiter

/-- Static block description and stored data of a downloader block; two block
lists with the same projection behave identically for data-size bookkeeping. -/
def blockBD (b : DLBlock) : PieceBlock × Option (List Nat) :=
  (b.Block, b.data)

/-- Every stored block datum has the block's declared length. -/
def sizedBlocks (bl : List DLBlock) : Prop :=
  ∀ b ∈ bl, ∀ d, b.data = some d → d.length = b.Block.Length

/-- Invariant of the piece downloader used for the assembly claim: the static
block skeleton is the piece's block list and all stored data is correctly
sized. -/
def pdSizeInv (len : Nat) (s : PieceDownloader) : Prop :=
  s.blocks.map DLBlock.Block = pieceBlocks len ∧ sizedBlocks s.blocks

/-- A piece input carries data of the declared length of the block it
targets. -/
def inputSized (len : Nat) (inp : PDInput) : Prop :=
  ∀ i d, inp = .piece i d → ∀ b, (pieceBlocks len)[i]? = some b → d.length = b.Length

/-- Invariant of the peer-connection system: `closedC` is closed only after
both tasks exited and the connection was closed, and each waiting phase of
`Run` remembers what has already been observed. -/
def pcInv (s : PeerConnState) : Prop :=
  (s.closedCClosed = true → s.readerExited = true ∧ s.writerExited = true ∧ s.connClosed = true) ∧
  (s.phase = .closedWaitWriter → s.readerExited = true ∧ s.connClosed = true) ∧
  (s.phase = .closedWaitReader → s.connClosed = true) ∧
  (s.phase = .readerWaitWriter → s.readerExited = true ∧ s.connClosed = true) ∧
  (s.phase = .writerWaitReader → s.writerExited = true ∧ s.connClosed = true) ∧
  (s.phase = .donePhase → s.closedCClosed = true)

/-- A small engine configuration: generous connection caps, two unchoke
slots, a three-piece torrent, nobody blocklisted. -/
def engineCfgEx : EngineConfig :=
  { maxPeerAccept := 10, maxPeerDial := 10, unchokedPeers := 2, numPieces := 3
    blocked := [] }

/-- An engine state that already has the bit of piece 0. -/
def c1State : EngineState := { engineInit with bitfield := {0} }

/-- The state after the successful write of piece 1 from `c1State`. -/
def c1After : EngineState := { engineInit with bitfield := insert 1 ({0} : Finset Nat) }

/-- An event trace: two peers handshake and connect, the first disconnects,
then a regular unchoke tick fires. -/
def c7Events : List EngineEvent :=
  [.incomingConn 7, .incomingHSResult 7 42 true, .incomingConn 8,
   .incomingHSResult 8 99 true, .peerDisconnected 0, .unchokeTick]

/-- The state the event loop reaches on `c7Events`. -/
def c7Final : EngineState :=
  match runEngine engineCfgEx c7Events with
  | .ok s => s
  | .error _ => engineInit

/-- An engine state with one in-flight incoming handshaker at IP 5 and no
connected peer. -/
def c10State : EngineState :=
  { engineInit with incomingHandshakers := [5], connectedPeerIPs := {5} }

/-! ## Theorems -/

/-- C4: a RejectRequest for a requested block clears exactly that block's
`requested` flag (leaving data, the remaining blocks and the limiter alone, so
`nextBlock` can pick the block again), and the loop keeps running; a
RejectRequest for a block that was never requested closes the peer, emits an
error on `ErrC` and terminates the downloader. -/
theorem claim_C4_reject (s : PieceDownloader) (i : Nat) (b : DLBlock)
    (hb : s.blocks[i]? = some b) :
    (b.requested = true →
      pdStep s (.reject i) =
        ({ s with blocks := s.blocks.set i { b with requested := false } }, [], .running)) ∧
    (b.requested = false →
      pdStep s (.reject i) = (s, [.closedPeer, .errored], .failed)) := by
  constructor
  · intro hreq
    simp [pdStep, hb, hreq]
  · intro hreq
    simp [pdStep, hb, hreq]

/-- Witness for C4 at a concrete downloader: with the single block requested
the reject clears the flag; with it not requested the reject fails the
downloader. -/
theorem claim_C4_reject_witness :
    (pdStep pdChokeCexState (.reject 0) =
      ({ pdChokeCexState with
          blocks := [{ Block := { Index := 0, Begin := 0, Length := 5 },
                       requested := false, data := none }] }, [], .running)) ∧
    (pdStep (newPieceDownloader 0 5) (.reject 0) =
      (newPieceDownloader 0 5, [.closedPeer, .errored], .failed)) := by
  refine ⟨?_, ?_⟩
  · have h := (claim_C4_reject pdChokeCexState 0
      { Block := { Index := 0, Begin := 0, Length := 5 }, requested := true, data := none }
      (by decide)).1 (by decide)
    exact h
  · have h := (claim_C4_reject (newPieceDownloader 0 5) 0
      { Block := { Index := 0, Begin := 0, Length := 5 }, requested := false, data := none }
      (by decide)).2 (by decide)
    exact h

/-- C5 counterexample: a choked downloader for piece 0 of a Fast-extension
peer whose AllowedFast set contains piece 0. The claim predicts the
outstanding request is preserved (the spec-modelled transition
`chokeSpecFast`); the implemented transition clears it. -/
theorem claim_C5_counterexample :
    (pdStep pdChokeCexState .choke).1 ≠ chokeSpecFast true [0] pdChokeCexState ∧
    ((pdStep pdChokeCexState .choke).1.blocks.map DLBlock.requested = [false]) ∧
    ((chokeSpecFast true [0] pdChokeCexState).blocks.map DLBlock.requested = [true]) := by
  decide

/-- C5 amended: on Choke the downloader clears the `requested` flag of every
block that has not received data — unconditionally, with no AllowedFast
exemption — leaves blocks with data untouched, disables the slot source
(limiter nil), emits nothing and keeps running. -/
theorem claim_C5_choke (s : PieceDownloader) :
    (pdStep s .choke).1.limiter = none ∧
    (pdStep s .choke).2 = ([], .running) ∧
    ∀ (i : Nat) (b : DLBlock), s.blocks[i]? = some b →
      (b.data = none → (pdStep s .choke).1.blocks[i]? = some { b with requested := false }) ∧
      (b.data ≠ none → (pdStep s .choke).1.blocks[i]? = some b) := by
  refine ⟨rfl, rfl, ?_⟩
  intro i b hb
  constructor
  · intro hdata
    simp only [pdStep, List.getElem?_map, hb, Option.map_some]
    rcases b with ⟨blk, req, data⟩
    cases req <;> simp_all
  · intro hdata
    simp only [pdStep, List.getElem?_map, hb, Option.map_some]
    simp [hdata]

/-- Witness for C5 at the concrete choked downloader: the single dataless
requested block comes out cleared. -/
theorem claim_C5_choke_witness :
    (pdStep pdChokeCexState .choke).1.blocks[0]? =
      some { Block := { Index := 0, Begin := 0, Length := 5 },
             requested := false, data := none } := by
  have h := ((claim_C5_choke pdChokeCexState).2.2 0
    { Block := { Index := 0, Begin := 0, Length := 5 }, requested := true, data := none }
    (by decide)).1 rfl
  exact h

theorem assembleBlocks_aux (bl : List DLBlock) :
    ∀ acc : List Nat,
      bl.foldl (fun acc b => acc ++ b.data.getD []) acc =
        acc ++ (bl.map (fun b => b.data.getD [])).flatten := by
  induction bl with
  | nil => intro acc; simp
  | cons b rest ih =>
    intro acc
    simp only [List.foldl_cons, List.map_cons, List.flatten_cons, ih, List.append_assoc]

/-- The assembled buffer is the concatenation of the blocks' data in block
order. -/
theorem assembleBlocks_eq_flatten (bl : List DLBlock) :
    assembleBlocks bl = (bl.map (fun b => b.data.getD [])).flatten := by
  simpa using assembleBlocks_aux bl []

theorem pieceBlocksGo_sum :
    ∀ (fuel j len : Nat), len ≤ fuel * pieceBlockSize →
      ((pieceBlocksGo j fuel len).map PieceBlock.Length).sum = len := by
  have hbs : pieceBlockSize = 16384 := rfl
  intro fuel
  induction fuel with
  | zero =>
    intro j len hlen
    have hz : len = 0 := by omega
    subst hz; rfl
  | succ fuel ih =>
    intro j len hlen
    by_cases hle : len ≤ pieceBlockSize
    · simp [pieceBlocksGo, hle]
    · have hrec := ih (j + 1) (len - pieceBlockSize) (by simp only [hbs] at hlen ⊢; omega)
      simp only [pieceBlocksGo, if_neg hle, List.map_cons, List.sum_cons, hrec]
      omega

/-- The block lengths of a piece sum to the piece length. -/
theorem pieceBlocks_sum (len : Nat) :
    ((pieceBlocks len).map PieceBlock.Length).sum = len := by
  apply pieceBlocksGo_sum
  have hbs : pieceBlockSize = 16384 := rfl
  have h1 := Nat.div_add_mod (len + pieceBlockSize - 1) pieceBlockSize
  have h2 : (len + pieceBlockSize - 1) % pieceBlockSize < pieceBlockSize :=
    Nat.mod_lt _ (by decide)
  unfold numPieceBlocks
  simp only [hbs] at h1 h2 ⊢
  omega

theorem nextBlock_shape (bl : List DLBlock) :
    ∀ bl' x, nextBlock bl = some (bl', x) → bl'.map blockBD = bl.map blockBD := by
  show ∀ bl' x, nextBlock bl = some (bl', x) →
    bl'.map (fun b => (b.Block, b.data)) = bl.map (fun b => (b.Block, b.data))
  induction bl with
  | nil => intro bl' x h; simp [nextBlock] at h
  | cons b rest ih =>
    intro bl' x h
    by_cases hreq : b.requested
    · simp only [nextBlock, if_pos hreq] at h
      cases hrec : nextBlock rest with
      | none => rw [hrec] at h; simp at h
      | some p =>
        rw [hrec] at h
        cases p with
        | mk rest' blk =>
          simp only [Option.some_inj] at h
          cases h
          simp only [List.map_cons, List.cons.injEq, true_and]
          exact ih _ _ hrec
    · simp only [nextBlock, if_neg hreq] at h
      simp only [Option.some_inj] at h
      cases h
      simp

theorem list_set_self {α : Type} (l : List α) :
    ∀ (i : Nat) (x : α), l[i]? = some x → l.set i x = l := by
  induction l with
  | nil => intro i x h; simp at h
  | cons a rest ih =>
    intro i x h
    cases i with
    | zero => simp at h; simp [h]
    | succ j =>
      simp only [List.getElem?_cons_succ] at h
      simp [List.set_cons_succ, ih j x h]

theorem sized_of_BD_eq {bl bl' : List DLBlock}
    (h : bl'.map blockBD = bl.map blockBD) (hs : sizedBlocks bl) : sizedBlocks bl' := by
  intro b' hb' d hd
  have hmem : blockBD b' ∈ bl.map blockBD := by
    rw [← h]; exact List.mem_map_of_mem blockBD hb'
  rcases List.mem_map.mp hmem with ⟨b, hb, hEq⟩
  have hBlock : b.Block = b'.Block := congrArg Prod.fst hEq
  have hdata : b.data = b'.data := congrArg Prod.snd hEq
  have := hs b hb d (by rw [hdata, hd])
  rw [← hBlock]
  exact this

theorem shape_of_BD_eq {bl bl' : List DLBlock}
    (h : bl'.map blockBD = bl.map blockBD) :
    bl'.map DLBlock.Block = bl.map DLBlock.Block := by
  have h1 : (bl'.map blockBD).map Prod.fst = (bl.map blockBD).map Prod.fst := by rw [h]
  simpa [List.map_map, Function.comp, blockBD] using h1

/-- The dispatch of `Run` keeps the static block skeleton and, when every
delivered piece datum has its block's declared length, the data-size
invariant. -/
theorem pdStep_sizeInv {len : Nat} {s : PieceDownloader} {inp : PDInput}
    (hinv : pdSizeInv len s) (hin : inputSized len inp) :
    pdSizeInv len (pdStep s inp).1 := by
  obtain ⟨hshape, hsized⟩ := hinv
  cases inp with
  | tick =>
    cases hl : s.limiter with
    | none => simp only [pdStep, hl]; exact ⟨hshape, hsized⟩
    | some t =>
      by_cases hlt : t < maxQueuedBlocks
      · cases hnb : nextBlock s.blocks with
        | none => simp only [pdStep, hl, if_pos hlt, hnb]; exact ⟨hshape, hsized⟩
        | some p =>
          cases p with
          | mk blocks' blk =>
            have hbd := nextBlock_shape s.blocks blocks' blk hnb
            simp only [pdStep, hl, if_pos hlt, hnb]
            exact ⟨(shape_of_BD_eq hbd).trans hshape, sized_of_BD_eq hbd hsized⟩
      · simp only [pdStep, hl, if_neg hlt]; exact ⟨hshape, hsized⟩
  | piece i data =>
    cases hb : s.blocks[i]? with
    | none => simp only [pdStep, hb]; exact ⟨hshape, hsized⟩
    | some b =>
      have hsize : data.length = b.Block.Length := by
        have hmap : (s.blocks.map DLBlock.Block)[i]? = some b.Block := by
          rw [List.getElem?_map, hb]; rfl
        have hpb : (pieceBlocks len)[i]? = some b.Block := by rw [← hshape]; exact hmap
        exact hin i data rfl b.Block hpb
      have hset : ∀ limiter',
          pdSizeInv len
            { s with blocks := s.blocks.set i { b with data := some data }, limiter := limiter' } := by
        intro limiter'
        constructor
        · show (s.blocks.set i { b with data := some data }).map DLBlock.Block = pieceBlocks len
          rw [List.map_set]
          have : (s.blocks.map DLBlock.Block).set i b.Block = s.blocks.map DLBlock.Block := by
            apply list_set_self
            rw [List.getElem?_map, hb]; rfl
          exact this.trans hshape
        · intro b' hb' d hd
          rcases List.mem_or_eq_of_mem_set hb' with hmem | hEq
          · exact hsized b' hmem d hd
          · subst hEq
            simp only at hd
            cases hd
            exact hsize
      cases hd : drainToken b s.limiter with
      | none => simp only [pdStep, hb, hd]; exact ⟨hshape, hsized⟩
      | some limiter' =>
        simp only [pdStep, hb, hd]
        split
        · exact hset _
        · exact hset _
  | reject i =>
    cases hb : s.blocks[i]? with
    | none => simp only [pdStep, hb]; exact ⟨hshape, hsized⟩
    | some b =>
      simp only [pdStep, hb]
      split
      · constructor
        · show (s.blocks.set i { b with requested := false }).map DLBlock.Block = pieceBlocks len
          rw [List.map_set]
          have : (s.blocks.map DLBlock.Block).set i b.Block = s.blocks.map DLBlock.Block := by
            apply list_set_self
            rw [List.getElem?_map, hb]; rfl
          exact this.trans hshape
        · intro b' hb' d hd
          rcases List.mem_or_eq_of_mem_set hb' with hmem | hEq
          · exact hsized b' hmem d hd
          · subst hEq
            simp only at hd
            exact hsized b (List.getElem?_mem hb) d hd
      · exact ⟨hshape, hsized⟩
  | choke =>
    constructor
    · show (s.blocks.map fun b =>
          if b.data = none ∧ b.requested then { b with requested := false } else b).map
          DLBlock.Block = pieceBlocks len
      rw [List.map_map, ← hshape]
      apply List.map_congr_left
      intro b _
      by_cases h : b.data = none ∧ b.requested <;> simp [h]
    · intro b' hb' d hd
      rcases List.mem_map.mp hb' with ⟨b, hb, hEq⟩
      by_cases h : b.data = none ∧ b.requested
      · rw [if_pos h] at hEq
        subst hEq
        simp only at hd
        exact hsized b hb d hd
      · rw [if_neg h] at hEq
        subst hEq
        exact hsized b hb d hd
  | unchoke => exact ⟨hshape, hsized⟩
  | stop => exact ⟨hshape, hsized⟩

/-- One dispatch emits a `DoneC` value exactly when it finishes the
downloader. -/
theorem pdStep_done_count (s : PieceDownloader) (inp : PDInput) :
    ((pdStep s inp).2.1.filter isDoneOut).length =
      (if (pdStep s inp).2.2 = .finished then 1 else 0) := by
  cases inp with
  | tick =>
    cases hl : s.limiter with
    | none => simp [pdStep, hl]
    | some t =>
      by_cases hlt : t < maxQueuedBlocks
      · cases hnb : nextBlock s.blocks with
        | none => simp [pdStep, hl, hlt, hnb]
        | some p => cases p; simp [pdStep, hl, hlt, hnb, isDoneOut]
      · simp [pdStep, hl, hlt]
  | piece i data =>
    cases hb : s.blocks[i]? with
    | none => simp [pdStep, hb]
    | some b =>
      cases hd : drainToken b s.limiter with
      | none => simp [pdStep, hb, hd]
      | some limiter' =>
        simp only [pdStep, hb, hd]
        split
        · simp [isDoneOut]
        · simp
  | reject i =>
    cases hb : s.blocks[i]? with
    | none => simp [pdStep, hb]
    | some b =>
      simp only [pdStep, hb]
      split
      · simp
      · simp [isDoneOut]
  | choke => simp [pdStep]
  | unchoke => simp [pdStep]
  | stop => simp [pdStep]

/-- When a dispatch emits a `DoneC` value, the downloader finished, every
block of the final state has data, and the buffer is the assembly of the final
blocks. -/
theorem pdStep_done_mem (s : PieceDownloader) (inp : PDInput) (buf : List Nat)
    (hmem : PDOutput.done buf ∈ (pdStep s inp).2.1) :
    (pdStep s inp).2.2 = .finished ∧
      buf = assembleBlocks (pdStep s inp).1.blocks ∧
      allDone (pdStep s inp).1.blocks = true := by
  cases inp with
  | tick =>
    cases hl : s.limiter with
    | none => simp [pdStep, hl] at hmem
    | some t =>
      by_cases hlt : t < maxQueuedBlocks
      · cases hnb : nextBlock s.blocks with
        | none => simp [pdStep, hl, hlt, hnb] at hmem
        | some p => cases p; simp [pdStep, hl, hlt, hnb] at hmem
      · simp [pdStep, hl, hlt] at hmem
  | piece i data =>
    cases hb : s.blocks[i]? with
    | none => simp [pdStep, hb] at hmem
    | some b =>
      cases hd : drainToken b s.limiter with
      | none => simp [pdStep, hb, hd] at hmem
      | some limiter' =>
        by_cases hall : allDone (s.blocks.set i { b with data := some data }) = true
        · have hps : pdStep s (.piece i data) =
              ({ s with
                  blocks := s.blocks.set i { b with data := some data }
                  limiter := limiter' },
                [.done (assembleBlocks (s.blocks.set i { b with data := some data }))],
                .finished) := by
            simp [pdStep, hb, hd, hall]
          rw [hps] at hmem ⊢
          simp only [List.mem_singleton, PDOutput.done.injEq] at hmem
          subst hmem
          exact ⟨rfl, rfl, hall⟩
        · simp [pdStep, hb, hd, hall] at hmem
  | reject i =>
    cases hb : s.blocks[i]? with
    | none => simp [pdStep, hb] at hmem
    | some b =>
      simp only [pdStep, hb] at hmem
      split at hmem
      · simp at hmem
      · simp at hmem
  | choke => simp [pdStep] at hmem
  | unchoke => simp [pdStep] at hmem
  | stop => simp [pdStep] at hmem

theorem runPD_cons_running (s : PieceDownloader) (inp : PDInput) (rest : List PDInput)
    (h : (pdStep s inp).2.2 = .running) :
    runPD s (inp :: rest) =
      ((runPD (pdStep s inp).1 rest).1,
        (pdStep s inp).2.1 ++ (runPD (pdStep s inp).1 rest).2.1,
        (runPD (pdStep s inp).1 rest).2.2) := by
  rcases hps : pdStep s inp with ⟨s', out, st⟩
  rw [hps] at h
  simp only at h
  subst h
  simp [runPD, hps]

theorem runPD_cons_halt (s : PieceDownloader) (inp : PDInput) (rest : List PDInput)
    (h : (pdStep s inp).2.2 ≠ .running) :
    runPD s (inp :: rest) = pdStep s inp := by
  rcases hps : pdStep s inp with ⟨s', out, st⟩
  rw [hps] at h
  simp only at h
  cases st <;> simp_all [runPD, hps]

/-- Over a whole run, a `DoneC` value is emitted exactly when the run
finished; in particular `DoneC` fires at most once. -/
theorem runPD_done_count (inputs : List PDInput) :
    ∀ s : PieceDownloader,
      ((runPD s inputs).2.1.filter isDoneOut).length =
        (if (runPD s inputs).2.2 = .finished then 1 else 0) := by
  induction inputs with
  | nil => intro s; simp [runPD]
  | cons inp rest ih =>
    intro s
    have hstep := pdStep_done_count s inp
    by_cases hst : (pdStep s inp).2.2 = .running
    · rw [runPD_cons_running s inp rest hst]
      rw [hst] at hstep
      simp only [if_neg (by simp : PDStatus.running ≠ PDStatus.finished)] at hstep
      simp only [List.filter_append, List.length_append, hstep, ih (pdStep s inp).1]
      simp
    · rw [runPD_cons_halt s inp rest hst]
      exact hstep

/-- Over a whole run, an emitted `DoneC` buffer is the assembly of the final
blocks, every final block has data, and the run finished. -/
theorem runPD_done_mem (inputs : List PDInput) :
    ∀ (s : PieceDownloader) (buf : List Nat),
      PDOutput.done buf ∈ (runPD s inputs).2.1 →
      (runPD s inputs).2.2 = .finished ∧
        buf = assembleBlocks (runPD s inputs).1.blocks ∧
        allDone (runPD s inputs).1.blocks = true := by
  induction inputs with
  | nil => intro s buf h; simp [runPD] at h
  | cons inp rest ih =>
    intro s buf h
    by_cases hst : (pdStep s inp).2.2 = .running
    · rw [runPD_cons_running s inp rest hst] at h ⊢
      simp only [List.mem_append] at h
      rcases h with h | h
      · have hc := pdStep_done_count s inp
        rw [hst, if_neg (by simp : PDStatus.running ≠ PDStatus.finished)] at hc
        have : PDOutput.done buf ∈ (pdStep s inp).2.1.filter isDoneOut :=
          List.mem_filter.mpr ⟨h, by simp [isDoneOut]⟩
        rw [List.length_eq_zero] at hc
        rw [hc] at this
        simp at this
      · exact ih (pdStep s inp).1 buf h
    · rw [runPD_cons_halt s inp rest hst] at h ⊢
      exact pdStep_done_mem s inp buf h

/-- The size invariant holds along any run whose piece inputs are correctly
sized. -/
theorem runPD_sizeInv (len : Nat) (inputs : List PDInput) :
    ∀ s : PieceDownloader, pdSizeInv len s → (∀ inp ∈ inputs, inputSized len inp) →
      pdSizeInv len (runPD s inputs).1 := by
  induction inputs with
  | nil => intro s hinv _; exact hinv
  | cons inp rest ih =>
    intro s hinv hsz
    have hstep := pdStep_sizeInv hinv (hsz inp (by simp))
    by_cases hst : (pdStep s inp).2.2 = .running
    · rw [runPD_cons_running s inp rest hst]
      exact ih (pdStep s inp).1 hstep (fun i hi => hsz i (by simp [hi]))
    · rw [runPD_cons_halt s inp rest hst]
      exact hstep

/-- With every block present and correctly sized, the assembled buffer has the
piece length. -/
theorem assembled_length {len : Nat} {s : PieceDownloader}
    (hinv : pdSizeInv len s) (hall : allDone s.blocks = true) :
    (assembleBlocks s.blocks).length = len := by
  obtain ⟨hshape, hsized⟩ := hinv
  rw [assembleBlocks_eq_flatten, List.length_flatten]
  have hcong : s.blocks.map (fun b => (b.data.getD []).length) =
      s.blocks.map (fun b => b.Block.Length) := by
    apply List.map_congr_left
    intro b hb
    have hsome : b.data.isSome := by
      have := List.all_eq_true.mp hall b hb
      simpa using this
    rcases Option.isSome_iff_exists.mp hsome with ⟨d, hd⟩
    rw [hd]
    simpa using hsized b hb d hd
  rw [List.map_map, Function.comp_def, hcong]
  have : s.blocks.map (fun b => b.Block.Length) =
      (s.blocks.map DLBlock.Block).map PieceBlock.Length := by
    rw [List.map_map]; rfl
  rw [this, hshape, pieceBlocks_sum]

/-- C2 counterexample: a run of the downloader for a one-block piece of
length 5 that receives only `stop` emits no `DoneC` value at all (so `DoneC`
does not fire exactly once on every run), and a run receiving a 3-byte datum
for the 5-byte block emits a `DoneC` buffer of length 3, not the declared
piece length. -/
theorem claim_C2_counterexample :
    ((runPD (newPieceDownloader 0 5) [PDInput.stop]).2.1.filter isDoneOut).length = 0 ∧
    PDOutput.done [9, 9, 9] ∈ (runPD (newPieceDownloader 0 5) [PDInput.piece 0 [9, 9, 9]]).2.1 ∧
    ([9, 9, 9] : List Nat).length ≠ 5 := by
  decide

/-- C2 amended: on every run of a piece downloader, `DoneC` fires at most
once, and exactly once on the runs that terminate by completing every block;
an emitted buffer is the concatenation of the blocks' received data in
ascending block order, and — provided every delivered block datum has its
block's declared length — its total length equals the declared piece length. -/
theorem claim_C2_done_once_and_assembled (idx len : Nat) (inputs : List PDInput)
    (hsz : ∀ inp ∈ inputs, inputSized len inp) :
    (((runPD (newPieceDownloader idx len) inputs).2.1.filter isDoneOut).length ≤ 1) ∧
    (((runPD (newPieceDownloader idx len) inputs).2.1.filter isDoneOut).length = 1 ↔
      (runPD (newPieceDownloader idx len) inputs).2.2 = .finished) ∧
    (∀ buf, PDOutput.done buf ∈ (runPD (newPieceDownloader idx len) inputs).2.1 →
      buf = ((runPD (newPieceDownloader idx len) inputs).1.blocks.map
          (fun b => b.data.getD [])).flatten ∧
        buf.length = len ∧
        (runPD (newPieceDownloader idx len) inputs).2.2 = .finished) := by
  have hcount := runPD_done_count inputs (newPieceDownloader idx len)
  have hinv0 : pdSizeInv len (newPieceDownloader idx len) := by
    constructor
    · show ((pieceBlocks len).map fun b =>
        ({ Block := b, requested := false, data := none } : DLBlock)).map DLBlock.Block =
          pieceBlocks len
      rw [List.map_map]
      simp [Function.comp_def]
    · intro b hb d hd
      rcases List.mem_map.mp hb with ⟨pb, _, hEq⟩
      subst hEq
      simp at hd
  have hinv := runPD_sizeInv len inputs (newPieceDownloader idx len) hinv0 hsz
  refine ⟨?_, ?_, ?_⟩
  · rw [hcount]; split <;> omega
  · rw [hcount]; split <;> simp_all
  · intro buf hbuf
    obtain ⟨hfin, hasm, hall⟩ := runPD_done_mem inputs (newPieceDownloader idx len) buf hbuf
    refine ⟨?_, ?_, hfin⟩
    · rw [hasm, assembleBlocks_eq_flatten]
    · rw [hasm]
      exact assembled_length hinv hall

/-- Witness for C2 at a concrete run: a one-block piece of length 5 receives a
correctly sized datum; `DoneC` fires once with a 5-byte buffer. -/
theorem claim_C2_witness :
    (∀ inp ∈ [PDInput.piece 0 [1, 2, 3, 4, 5]], inputSized 5 inp) ∧
    ((runPD (newPieceDownloader 0 5) [PDInput.piece 0 [1, 2, 3, 4, 5]]).2.1.filter
        isDoneOut).length ≤ 1 ∧
    ∀ buf,
      PDOutput.done buf ∈ (runPD (newPieceDownloader 0 5) [PDInput.piece 0 [1, 2, 3, 4, 5]]).2.1 →
      buf.length = 5 := by
  have hsz : ∀ inp ∈ [PDInput.piece 0 [1, 2, 3, 4, 5]], inputSized 5 inp := by
    intro inp hinp
    simp only [List.mem_singleton] at hinp
    subst hinp
    intro i d hEq b hb
    cases hEq
    have hpb : (pieceBlocks 5)[0]? = some ⟨0, 0, 5⟩ := rfl
    rw [hpb] at hb
    cases hb
    rfl
  have h := claim_C2_done_once_and_assembled 0 5 [PDInput.piece 0 [1, 2, 3, 4, 5]] hsz
  exact ⟨hsz, h.1, fun buf hbuf => (h.2.2 buf hbuf).2.1⟩

theorem filter_length_set (bl : List DLBlock) :
    ∀ (i : Nat) (b v : DLBlock), bl[i]? = some b →
      ((bl.set i v).filter outstandingBlock).length + (if outstandingBlock b then 1 else 0) =
        (bl.filter outstandingBlock).length + (if outstandingBlock v then 1 else 0) := by
  induction bl with
  | nil => intro i b v h; simp at h
  | cons a rest ih =>
    intro i b v h
    cases i with
    | zero =>
      simp only [List.getElem?_cons_zero, Option.some_inj] at h
      subst h
      simp only [List.set_cons_zero, List.filter_cons]
      split <;> split <;> rfl
    | succ j =>
      simp only [List.getElem?_cons_succ] at h
      simp only [List.set_cons_succ, List.filter_cons]
      have := ih j b v h
      split <;> (try simp only [List.length_cons]) <;> omega

theorem nextBlock_outstanding (bl : List DLBlock) :
    ∀ bl' x, nextBlock bl = some (bl', x) →
      (bl'.filter outstandingBlock).length ≤ (bl.filter outstandingBlock).length + 1 := by
  induction bl with
  | nil => intro bl' x h; simp [nextBlock] at h
  | cons a rest ih =>
    intro bl' x h
    by_cases hreq : a.requested
    · simp only [nextBlock, if_pos hreq] at h
      cases hrec : nextBlock rest with
      | none => rw [hrec] at h; simp at h
      | some p =>
        rw [hrec] at h
        cases p with
        | mk rest' blk =>
          simp only [Option.some_inj] at h
          cases h
          have := ih _ _ hrec
          simp only [List.filter_cons]
          split <;> (try simp only [List.length_cons]) <;> omega
    · simp only [nextBlock, if_neg hreq] at h
      simp only [Option.some_inj] at h
      cases h
      have ha : outstandingBlock a = false := by simp [outstandingBlock, hreq]
      simp only [List.filter_cons, ha, Bool.false_eq_true, if_false]
      split <;> (try simp only [List.length_cons]) <;> omega

theorem mem_filter_pos (bl : List DLBlock) (i : Nat) (b : DLBlock)
    (h : bl[i]? = some b) (hb : outstandingBlock b = true) :
    1 ≤ (bl.filter outstandingBlock).length := by
  have hmem : b ∈ bl.filter outstandingBlock :=
    List.mem_filter.mpr ⟨List.getElem?_mem h, hb⟩
  exact List.length_pos.mpr (List.ne_nil_of_mem hmem)

/-- One guarded dispatch preserves the pipeline invariant: an `unchoke` is
only delivered while the downloader is choked. -/
theorem pdStep_pdInv {c : Bool} {s : PieceDownloader} {inp : PDInput}
    (hinv : pdInv c s) (hg : inp = .unchoke → c = true) :
    pdInv (chokedAfter c inp) (pdStep s inp).1 := by
  obtain ⟨hbound, hlim, hchoked⟩ := hinv
  cases inp with
  | tick =>
    cases hl : s.limiter with
    | none =>
      have hps : (pdStep s .tick).1 = s := by simp [pdStep, hl]
      rw [hps]
      exact ⟨hbound, hlim, hchoked⟩
    | some t =>
      have hct : c ≠ true := by
        intro hc
        rw [(hchoked hc).1] at hl
        exact Option.noConfusion hl
      have hcf : chokedAfter c .tick = true → False := by
        simpa [chokedAfter] using hct
      by_cases hlt : t < maxQueuedBlocks
      · cases hnb : nextBlock s.blocks with
        | none =>
          have hps : (pdStep s .tick).1 = { s with limiter := none } := by
            simp [pdStep, hl, hlt, hnb]
          rw [hps]
          refine ⟨hbound, ?_, fun hc => absurd hc hct⟩
          intro t' ht'
          exact absurd ht' (by simp)
        | some p =>
          cases p with
          | mk blocks' blk =>
            have hle := nextBlock_outstanding s.blocks blocks' blk hnb
            have hot := hlim t hl
            have hps : (pdStep s .tick).1 =
                { s with blocks := blocks', limiter := some (t + 1) } := by
              simp [pdStep, hl, hlt, hnb]
            rw [hps]
            show pdInvParts (chokedAfter c .tick) blocks' (some (t + 1))
            refine ⟨by omega, ?_, fun hc => absurd hc hct⟩
            intro t' ht'
            simp only [Option.some_inj] at ht'
            subst ht'
            omega
      · have hps : (pdStep s .tick).1 = s := by simp [pdStep, hl, hlt]
        rw [hps]
        exact ⟨hbound, hlim, hchoked⟩
  | piece i data =>
    cases hb : s.blocks[i]? with
    | none =>
      have hps : (pdStep s (.piece i data)).1 = s := by simp [pdStep, hb]
      rw [hps]
      exact ⟨hbound, hlim, hchoked⟩
    | some b =>
      cases hd : drainToken b s.limiter with
      | none =>
        have hps : (pdStep s (.piece i data)).1 = s := by simp [pdStep, hb, hd]
        rw [hps]
        exact ⟨hbound, hlim, hchoked⟩
      | some limiter' =>
        have hset := filter_length_set s.blocks i b { b with data := some data } hb
        have hvn : outstandingBlock { b with data := some data } = false := by
          simp [outstandingBlock]
        rw [hvn] at hset
        simp only [if_neg (Bool.false_ne_true)] at hset
        have hps : (pdStep s (.piece i data)).1 =
            { s with blocks := s.blocks.set i { b with data := some data },
                     limiter := limiter' } := by
          by_cases hall : allDone (s.blocks.set i { b with data := some data }) = true
          · simp [pdStep, hb, hd, hall]
          · simp [pdStep, hb, hd, hall]
        rw [hps]
        show pdInvParts (chokedAfter c (.piece i data))
          (s.blocks.set i { b with data := some data }) limiter'
        by_cases hcond : b.requested ∧ b.data = none ∧ s.limiter ≠ none
        · have hob : outstandingBlock b = true := by
            simp [outstandingBlock, hcond.1, hcond.2.1]
          rw [hob, if_pos rfl] at hset
          cases hl : s.limiter with
          | none => exact absurd hl hcond.2.2
          | some t =>
            have hct : c ≠ true := by
              intro hc
              rw [(hchoked hc).1] at hl
              exact Option.noConfusion hl
            cases t with
            | zero =>
              rw [drainToken.eq_def, if_pos hcond, hl] at hd
              simp at hd
            | succ t' =>
              have hd2 : drainToken b s.limiter = some (some t') := by
                rw [drainToken.eq_def, if_pos hcond, hl]
              rw [hd] at hd2
              simp only [Option.some_inj] at hd2
              subst hd2
              have hot := hlim (t' + 1) hl
              refine ⟨by omega, ?_, fun hc => absurd hc (by simpa [chokedAfter] using hct)⟩
              intro t'' ht''
              simp only [Option.some_inj] at ht''
              subst ht''
              omega
        · have hd2 : drainToken b s.limiter = some s.limiter := by
            rw [drainToken.eq_def, if_neg hcond]
          rw [hd] at hd2
          simp only [Option.some_inj] at hd2
          subst hd2
          by_cases hob : outstandingBlock b = true
          · rw [hob, if_pos rfl] at hset
            have hlimn : s.limiter = none := by
              by_contra hne
              have hx := hob
              simp only [outstandingBlock, Bool.and_eq_true] at hx
              exact hcond ⟨hx.1, Option.isNone_iff_eq_none.mp hx.2, hne⟩
            have hpos := mem_filter_pos s.blocks i b hb hob
            have hcf : c ≠ true := by
              intro hc
              have := (hchoked hc).2
              omega
            refine ⟨by omega, ?_, fun hc => absurd hc (by simpa [chokedAfter] using hcf)⟩
            intro t'' ht''
            rw [hlimn] at ht''
            exact absurd ht'' (by simp)
          · have hob' : outstandingBlock b = false := Bool.eq_false_iff.mpr hob
            rw [hob'] at hset
            simp only [if_neg (Bool.false_ne_true)] at hset
            refine ⟨by omega, ?_, ?_⟩
            · intro t'' ht''
              have := hlim t'' ht''
              omega
            · intro hc
              have hc' : c = true := by simpa [chokedAfter] using hc
              refine ⟨(hchoked hc').1, ?_⟩
              have := (hchoked hc').2
              omega
  | reject i =>
    cases hb : s.blocks[i]? with
    | none =>
      have hps : (pdStep s (.reject i)).1 = s := by simp [pdStep, hb]
      rw [hps]
      exact ⟨hbound, hlim, hchoked⟩
    | some b =>
      by_cases hreq : b.requested = true
      · have hset := filter_length_set s.blocks i b { b with requested := false } hb
        have hvn : outstandingBlock { b with requested := false } = false := by
          simp [outstandingBlock]
        rw [hvn] at hset
        simp only [if_neg (Bool.false_ne_true)] at hset
        have hps : (pdStep s (.reject i)).1 =
            { s with blocks := s.blocks.set i { b with requested := false } } := by
          simp [pdStep, hb, hreq]
        rw [hps]
        show pdInvParts (chokedAfter c (.reject i))
          (s.blocks.set i { b with requested := false }) s.limiter
        refine ⟨?_, ?_, ?_⟩
        · split at hset <;> omega
        · intro t' ht'
          have := hlim t' ht'
          constructor
          · split at hset <;> omega
          · exact this.2
        · intro hc
          have hc' : c = true := by simpa [chokedAfter] using hc
          refine ⟨(hchoked hc').1, ?_⟩
          have := (hchoked hc').2
          split at hset <;> omega
      · have hreq' : b.requested = false := Bool.eq_false_iff.mpr hreq
        have hps : (pdStep s (.reject i)).1 = s := by simp [pdStep, hb, hreq']
        rw [hps]
        exact ⟨hbound, hlim, hchoked⟩
  | choke =>
    have hzero : ((s.blocks.map fun b =>
        if b.data = none ∧ b.requested then { b with requested := false } else b).filter
        outstandingBlock).length = 0 := by
      rw [List.length_eq_zero, List.filter_eq_nil_iff]
      intro b' hb'
      rcases List.mem_map.mp hb' with ⟨b, _, hEq⟩
      by_cases h : b.data = none ∧ b.requested
      · rw [if_pos h] at hEq
        subst hEq
        simp [outstandingBlock]
      · rw [if_neg h] at hEq
        subst hEq
        simp only [outstandingBlock, Bool.and_eq_true, Bool.not_eq_true]
        intro hcon
        exact h ⟨Option.isNone_iff_eq_none.mp hcon.2, hcon.1⟩
    have hps : (pdStep s .choke).1 =
        { s with
            blocks := s.blocks.map fun b =>
              if b.data = none ∧ b.requested then { b with requested := false } else b
            limiter := none } := by
      simp [pdStep]
    rw [hps]
    show pdInvParts (chokedAfter c .choke)
      (s.blocks.map fun b =>
        if b.data = none ∧ b.requested then { b with requested := false } else b) none
    refine ⟨by omega, ?_, fun _ => ⟨rfl, hzero⟩⟩
    intro t' ht'
    exact absurd ht' (by simp)
  | unchoke =>
    have hc := hg rfl
    have hz := (hchoked hc).2
    have hps : (pdStep s .unchoke).1 = { s with limiter := some 0 } := by simp [pdStep]
    rw [hps]
    show pdInvParts (chokedAfter c .unchoke) s.blocks (some 0)
    refine ⟨by omega, ?_, ?_⟩
    · intro t' ht'
      simp only [Option.some_inj] at ht'
      subst ht'
      constructor
      · omega
      · show 0 ≤ maxQueuedBlocks
        omega
    · intro h
      exact absurd h (by simp [chokedAfter])
  | stop =>
    have hps : (pdStep s .stop).1 = s := by simp [pdStep]
    rw [hps]
    exact ⟨hbound, hlim, hchoked⟩

theorem unchokesGuarded_append (pre : List PDInput) :
    ∀ (c : Bool) (suf : List PDInput), unchokesGuarded c (pre ++ suf) = true →
      unchokesGuarded c pre = true := by
  induction pre with
  | nil => intro c suf _; rfl
  | cons inp rest ih =>
    intro c suf h
    simp only [List.cons_append, unchokesGuarded, Bool.and_eq_true] at h ⊢
    exact ⟨h.1, ih _ suf h.2⟩

/-- Along any run whose unchokes arrive only while choked, the invariant holds
at the end; in particular at most `maxQueuedBlocks` blocks are outstanding. -/
theorem runPD_outstanding (inputs : List PDInput) :
    ∀ (c : Bool) (s : PieceDownloader), pdInv c s → unchokesGuarded c inputs = true →
      outstanding (runPD s inputs).1 ≤ maxQueuedBlocks := by
  induction inputs with
  | nil => intro c s hinv _; exact hinv.1
  | cons inp rest ih =>
    intro c s hinv hg
    simp only [unchokesGuarded, Bool.and_eq_true] at hg
    have hg1 : inp = .unchoke → c = true := by
      intro h
      subst h
      simpa using hg.1
    have hstep := pdStep_pdInv hinv hg1
    by_cases hst : (pdStep s inp).2.2 = .running
    · rw [runPD_cons_running s inp rest hst]
      exact ih (chokedAfter c inp) (pdStep s inp).1 hstep hg.2
    · rw [runPD_cons_halt s inp rest hst]
      exact hstep.1

/-- C3 counterexample: for an 11-block piece, ten ticks fill the pipeline
(10 outstanding requests), a spurious Unchoke replaces the token channel with
a fresh empty one, and a further tick issues an 11th request: 11 blocks are
simultaneously outstanding, above the claimed bound of 10 — the token channel
does not preserve the bound across every Unchoke transition. -/
theorem claim_C3_counterexample :
    outstanding (runPD (newPieceDownloader 0 (11 * 16384)) pdElevenTrace).1 = 11 ∧
    maxQueuedBlocks < 11 := by
  constructor
  · decide
  · decide

/-- C3 amended: at most 10 blocks are simultaneously outstanding at every
point of every run in which each Unchoke input arrives while the downloader
is choked (the engine signals `UnchokeC` only for downloaders it has
previously choked); an Unchoke delivered in the unchoked state replaces the
token channel and can break the bound. -/
theorem claim_C3_outstanding_bound (idx len : Nat) (inputs pre suf : List PDInput)
    (hsplit : inputs = pre ++ suf)
    (hg : unchokesGuarded false inputs = true) :
    outstanding (runPD (newPieceDownloader idx len) pre).1 ≤ maxQueuedBlocks := by
  subst hsplit
  have hgpre := unchokesGuarded_append pre false suf hg
  have hinv0 : pdInv false (newPieceDownloader idx len) := by
    have hzero : ((newPieceDownloader idx len).blocks.filter outstandingBlock).length = 0 := by
      rw [List.length_eq_zero, List.filter_eq_nil_iff]
      intro b' hb'
      simp only [newPieceDownloader] at hb'
      rcases List.mem_map.mp hb' with ⟨pb, _, hEq⟩
      subst hEq
      simp [outstandingBlock]
    refine ⟨by omega, ?_, ?_⟩
    · intro t ht
      simp only [newPieceDownloader, Option.some_inj] at ht
      subst ht
      constructor
      · omega
      · show 0 ≤ maxQueuedBlocks
        omega
    · intro h
      exact absurd h (by simp)
  exact runPD_outstanding pre false (newPieceDownloader idx len) hinv0 hgpre

/-- Witness for C3 at a concrete guarded run: two ticks, a choke and an
unchoke followed by a tick keep the outstanding count within the bound. -/
theorem claim_C3_witness :
    unchokesGuarded false [PDInput.tick, PDInput.tick, PDInput.choke, PDInput.unchoke,
      PDInput.tick] = true ∧
    outstanding (runPD (newPieceDownloader 0 40000)
      [PDInput.tick, PDInput.tick, PDInput.choke, PDInput.unchoke, PDInput.tick]).1 ≤
      maxQueuedBlocks :=
  ⟨by decide,
    claim_C3_outstanding_bound 0 40000
      [PDInput.tick, PDInput.tick, PDInput.choke, PDInput.unchoke, PDInput.tick]
      [PDInput.tick, PDInput.tick, PDInput.choke, PDInput.unchoke, PDInput.tick] []
      (by simp) (by decide)⟩

theorem pcStep_inv {s : PeerConnState} {a : PCAction} {s' : PeerConnState}
    (hinv : pcInv s) (hstep : pcStep s a = .ok s') : pcInv s' := by
  obtain ⟨h1, h2, h3, h4, h5, h6⟩ := hinv
  cases a with
  | closeCall =>
    by_cases hc : s.closeCClosed
    · simp [pcStep, hc] at hstep
    · simp only [pcStep, hc, if_neg] at hstep
      rw [if_neg (by simp [hc])] at hstep
      simp only [Except.ok.injEq] at hstep
      subst hstep
      exact ⟨h1, h2, h3, h4, h5, h6⟩
  | readerExit =>
    simp only [pcStep, Except.ok.injEq] at hstep
    subst hstep
    exact ⟨fun h => ⟨rfl, (h1 h).2.1, (h1 h).2.2⟩, fun h => ⟨rfl, (h2 h).2⟩, h3,
      fun h => ⟨rfl, (h4 h).2⟩, h5, h6⟩
  | writerExit =>
    simp only [pcStep, Except.ok.injEq] at hstep
    subst hstep
    exact ⟨fun h => ⟨(h1 h).1, rfl, (h1 h).2.2⟩, h2, h3, h4, fun h => ⟨rfl, (h5 h).2⟩, h6⟩
  | runSelectClose =>
    by_cases hcond : s.phase = .selectWait ∧ s.closeCClosed
    · rw [pcStep, if_pos hcond] at hstep
      simp only [Except.ok.injEq] at hstep
      subst hstep
      refine ⟨fun h => ⟨(h1 h).1, (h1 h).2.1, rfl⟩, ?_, fun _ => rfl, ?_, ?_, ?_⟩ <;>
        intro h <;> simp at h
    · rw [pcStep, if_neg hcond] at hstep
      simp only [Except.ok.injEq] at hstep
      subst hstep
      exact ⟨h1, h2, h3, h4, h5, h6⟩
  | runSelectReader =>
    by_cases hcond : s.phase = .selectWait ∧ s.readerExited
    · rw [pcStep, if_pos hcond] at hstep
      simp only [Except.ok.injEq] at hstep
      subst hstep
      refine ⟨fun h => ⟨(h1 h).1, (h1 h).2.1, rfl⟩, ?_, ?_, fun _ => ⟨hcond.2, rfl⟩, ?_, ?_⟩ <;>
        intro h <;> simp at h
    · rw [pcStep, if_neg hcond] at hstep
      simp only [Except.ok.injEq] at hstep
      subst hstep
      exact ⟨h1, h2, h3, h4, h5, h6⟩
  | runSelectWriter =>
    by_cases hcond : s.phase = .selectWait ∧ s.writerExited
    · rw [pcStep, if_pos hcond] at hstep
      simp only [Except.ok.injEq] at hstep
      subst hstep
      refine ⟨fun h => ⟨(h1 h).1, (h1 h).2.1, rfl⟩, ?_, ?_, ?_, fun _ => ⟨hcond.2, rfl⟩, ?_⟩ <;>
        intro h <;> simp at h
    · rw [pcStep, if_neg hcond] at hstep
      simp only [Except.ok.injEq] at hstep
      subst hstep
      exact ⟨h1, h2, h3, h4, h5, h6⟩
  | runAwaitReader =>
    by_cases hcond : s.phase = .closedWaitReader ∧ s.readerExited
    · rw [pcStep, if_pos hcond] at hstep
      simp only [Except.ok.injEq] at hstep
      subst hstep
      refine ⟨fun h => ⟨(h1 h).1, (h1 h).2.1, (h1 h).2.2⟩,
        fun _ => ⟨hcond.2, h3 hcond.1⟩, ?_, ?_, ?_, ?_⟩ <;> intro h <;> simp at h
    · rw [pcStep, if_neg hcond] at hstep
      by_cases hcond2 : s.phase = .writerWaitReader ∧ s.readerExited
      · rw [if_pos hcond2] at hstep
        simp only [Except.ok.injEq] at hstep
        subst hstep
        have hw := h5 hcond2.1
        refine ⟨fun _ => ⟨hcond2.2, hw.1, hw.2⟩, ?_, ?_, ?_, ?_, fun _ => rfl⟩ <;>
          intro h <;> simp at h
      · rw [if_neg hcond2] at hstep
        simp only [Except.ok.injEq] at hstep
        subst hstep
        exact ⟨h1, h2, h3, h4, h5, h6⟩
  | runAwaitWriter =>
    by_cases hcond : s.phase = .closedWaitWriter ∧ s.writerExited
    · rw [pcStep, if_pos hcond] at hstep
      simp only [Except.ok.injEq] at hstep
      subst hstep
      have hr := h2 hcond.1
      refine ⟨fun _ => ⟨hr.1, hcond.2, hr.2⟩, ?_, ?_, ?_, ?_, fun _ => rfl⟩ <;>
        intro h <;> simp at h
    · rw [pcStep, if_neg hcond] at hstep
      by_cases hcond2 : s.phase = .readerWaitWriter ∧ s.writerExited
      · rw [if_pos hcond2] at hstep
        simp only [Except.ok.injEq] at hstep
        subst hstep
        have hr := h4 hcond2.1
        refine ⟨fun _ => ⟨hr.1, hcond2.2, hr.2⟩, ?_, ?_, ?_, ?_, fun _ => rfl⟩ <;>
          intro h <;> simp at h
      · rw [if_neg hcond2] at hstep
        simp only [Except.ok.injEq] at hstep
        subst hstep
        exact ⟨h1, h2, h3, h4, h5, h6⟩

theorem pcRun_inv (acts : List PCAction) :
    ∀ s s', pcInv s → pcRun s acts = .ok s' → pcInv s' := by
  induction acts with
  | nil =>
    intro s s' hinv h
    simp only [pcRun, Except.ok.injEq] at h
    subst h
    exact hinv
  | cons a rest ih =>
    intro s s' hinv h
    simp only [pcRun] at h
    cases hstep : pcStep s a with
    | ok s1 =>
      rw [hstep] at h
      exact ih s1 s' (pcStep_inv hinv hstep) h
    | error e => rw [hstep] at h; exact absurd h (by simp)

/-- C9 counterexample: the claim's own scenario — a `Close` call that has
completed (`Run` took the close branch, both tasks exited and were awaited,
`closedC` was closed so the call returned) followed by a second `Close` call —
panics: `close(p.closeC)` on an already-closed channel. `Close` is therefore
not idempotent. -/
theorem claim_C9_counterexample :
    pcRun peerConnInit (pcFullCloseTrace ++ [PCAction.closeCall]) =
      .error "close of closed channel" ∧
    pcRun peerConnInit pcFullCloseTrace =
      .ok { closeCClosed := true, readerExited := true, writerExited := true,
            connClosed := true, closedCClosed := true, phase := .donePhase } := by
  constructor
  · rfl
  · rfl

/-- C9 amended: `Close` may be called at most once — the first call from a
fresh connection succeeds and any later call panics on the closed channel —
and a call returns only after both tasks have exited: in every execution,
once `closedC` is closed (the condition on which `Close` returns) the reader
and the writer have exited and the connection has been closed. -/
theorem claim_C9_close_waits (acts : List PCAction) (s : PeerConnState)
    (hrun : pcRun peerConnInit acts = .ok s) (hclosed : s.closedCClosed = true) :
    s.readerExited = true ∧ s.writerExited = true ∧ s.connClosed = true ∧
    (∀ s2, s2.closeCClosed = true → pcStep s2 .closeCall = .error "close of closed channel") := by
  have hinv0 : pcInv peerConnInit := by
    refine ⟨?_, ?_, ?_, ?_, ?_, ?_⟩ <;> intro h <;> simp [peerConnInit] at h
  have hinv := pcRun_inv acts peerConnInit s hinv0 hrun
  refine ⟨(hinv.1 hclosed).1, (hinv.1 hclosed).2.1, (hinv.1 hclosed).2.2, ?_⟩
  intro s2 h2
  simp [pcStep, h2]

/-- Witness for C9 at the concrete full-close trace. -/
theorem claim_C9_witness :
    pcRun peerConnInit pcFullCloseTrace =
      .ok { closeCClosed := true, readerExited := true, writerExited := true,
            connClosed := true, closedCClosed := true, phase := .donePhase } ∧
    ({ closeCClosed := true, readerExited := true, writerExited := true,
        connClosed := true, closedCClosed := true,
        phase := .donePhase } : PeerConnState).readerExited = true :=
  ⟨rfl,
    (claim_C9_close_waits pcFullCloseTrace
      { closeCClosed := true, readerExited := true, writerExited := true,
        connClosed := true, closedCClosed := true, phase := .donePhase }
      rfl rfl).1⟩

theorem RequestBlocks_spec (n : Nat) :
    ∀ (d : InfoDownloader) (k : Nat),
      d.blocks.length - d.nextBlockIndex = n →
      (∀ i ∈ d.requested, i < d.nextBlockIndex) →
      d.nextBlockIndex ≤ d.blocks.length →
      (RequestBlocks d k).2 =
        List.range' d.nextBlockIndex
          (min (d.blocks.length - d.nextBlockIndex) (k - d.requested.card)) ∧
      (RequestBlocks d k).1.nextBlockIndex =
        d.nextBlockIndex + min (d.blocks.length - d.nextBlockIndex) (k - d.requested.card) ∧
      (RequestBlocks d k).1.requested = d.requested ∪ (RequestBlocks d k).2.toFinset ∧
      (RequestBlocks d k).1.blocks = d.blocks ∧
      (RequestBlocks d k).1.Bytes = d.Bytes := by
  induction n with
  | zero =>
    intro d k hn hreq hcur
    have hstop : ¬(d.nextBlockIndex < d.blocks.length ∧ d.requested.card < k) := by
      intro h
      omega
    rw [RequestBlocks, dif_neg hstop]
    have hm : min (d.blocks.length - d.nextBlockIndex) (k - d.requested.card) = 0 := by
      omega
    rw [hm]
    simp
  | succ n ih =>
    intro d k hn hreq hcur
    have hlt : d.nextBlockIndex < d.blocks.length := by omega
    by_cases hk : d.requested.card < k
    · have hcond : d.nextBlockIndex < d.blocks.length ∧ d.requested.card < k := ⟨hlt, hk⟩
      rw [RequestBlocks, dif_pos hcond]
      set d' : InfoDownloader :=
        { d with
            requested := insert d.nextBlockIndex d.requested
            nextBlockIndex := d.nextBlockIndex + 1 } with hd'
      have hnotmem : d.nextBlockIndex ∉ d.requested := by
        intro hmem
        exact absurd (hreq _ hmem) (by omega)
      have hcard : d'.requested.card = d.requested.card + 1 := by
        rw [hd']
        exact Finset.card_insert_of_not_mem hnotmem
      have hnx : d'.nextBlockIndex = d.nextBlockIndex + 1 := rfl
      have hbl : d'.blocks = d.blocks := rfl
      have hreq' : ∀ i ∈ d'.requested, i < d'.nextBlockIndex := by
        intro i hi
        have hi' : i ∈ insert d.nextBlockIndex d.requested := hi
        simp only [Finset.mem_insert] at hi'
        rw [hnx]
        rcases hi' with h | h
        · omega
        · have := hreq i h
          omega
      have hrec := ih d' k (by rw [hbl, hnx]; omega) hreq' (by rw [hbl, hnx]; omega)
      obtain ⟨h1, h2, h3, h4, h5⟩ := hrec
      have hm : min (d.blocks.length - d.nextBlockIndex) (k - d.requested.card) =
          min (d'.blocks.length - d'.nextBlockIndex) (k - d'.requested.card) + 1 := by
        rw [hbl, hnx, hcard]
        omega
      refine ⟨?_, ?_, ?_, ?_, ?_⟩
      · show d.nextBlockIndex :: (RequestBlocks d' k).2 = _
        rw [h1, hm]
        rfl
      · show (RequestBlocks d' k).1.nextBlockIndex = _
        rw [h2, hm]
        omega
      · show (RequestBlocks d' k).1.requested =
          d.requested ∪ (d.nextBlockIndex :: (RequestBlocks d' k).2).toFinset
        rw [h3, List.toFinset_cons, Finset.union_insert, hd']
        simp only [Finset.insert_union]
      · show (RequestBlocks d' k).1.blocks = d.blocks
        rw [h4, hd']
      · show (RequestBlocks d' k).1.Bytes = d.Bytes
        rw [h5, hd']
    · have hstop : ¬(d.nextBlockIndex < d.blocks.length ∧ d.requested.card < k) := by
        intro h
        exact hk h.2
      rw [RequestBlocks, dif_neg hstop]
      have hm : min (d.blocks.length - d.nextBlockIndex) (k - d.requested.card) = 0 := by
        omega
      rw [hm]
      simp

/-- C8: from any reachable `InfoDownloader` state (every requested index lies
below the cursor), `RequestBlocks(k)` issues requests for the consecutive
block indices starting at the cursor — strict ascending order — in number
`min(blocks − cursor, k − inflight)` (topping the in-flight set up to `k`, so
at most `k` new requests), records exactly the issued indices in the requested
set and advances the cursor past them; the buffer and block table are
untouched. -/
theorem claim_C8_request_blocks (d : InfoDownloader) (k : Nat)
    (hreq : ∀ i ∈ d.requested, i < d.nextBlockIndex)
    (hcur : d.nextBlockIndex ≤ d.blocks.length) :
    (RequestBlocks d k).2 =
      List.range' d.nextBlockIndex
        (min (d.blocks.length - d.nextBlockIndex) (k - d.requested.card)) ∧
    (RequestBlocks d k).2.length ≤ k ∧
    (RequestBlocks d k).2.Pairwise (· < ·) ∧
    (RequestBlocks d k).1.nextBlockIndex =
      d.nextBlockIndex + (RequestBlocks d k).2.length ∧
    (RequestBlocks d k).1.requested = d.requested ∪ (RequestBlocks d k).2.toFinset ∧
    (RequestBlocks d k).1.blocks = d.blocks ∧
    (RequestBlocks d k).1.Bytes = d.Bytes := by
  obtain ⟨h1, h2, h3, h4, h5⟩ :=
    RequestBlocks_spec (d.blocks.length - d.nextBlockIndex) d k rfl hreq hcur
  have hlen : (RequestBlocks d k).2.length =
      min (d.blocks.length - d.nextBlockIndex) (k - d.requested.card) := by
    rw [h1, List.length_range']
  refine ⟨h1, ?_, ?_, ?_, h3, h4, h5⟩
  · rw [hlen]
    omega
  · rw [h1]
    exact List.pairwise_lt_range' _ _
  · rw [hlen]
    exact h2

/-- Witness for C8: a fresh metadata download of 3 blocks with queue length 2
requests blocks 0 and 1 in order. -/
theorem claim_C8_witness :
    (∀ i ∈ (newInfoDownloader (2 * 16384 + 100)).requested,
      i < (newInfoDownloader (2 * 16384 + 100)).nextBlockIndex) ∧
    (RequestBlocks (newInfoDownloader (2 * 16384 + 100)) 2).2 = [0, 1] :=
  ⟨by decide,
    by
      have h := claim_C8_request_blocks (newInfoDownloader (2 * 16384 + 100)) 2
        (by decide) (by decide)
      rw [h.1]
      rfl⟩

theorem tickUnchoke_eq_map (k : Nat) (c : Bool) (ps : List Peer) :
    tickUnchoke k c ps = ps.map (tickUnchokeF k c ps) := rfl

theorem tickUnchokeF_fields (k : Nat) (c : Bool) (ps : List Peer) (pe : Peer) :
    (tickUnchokeF k c ps pe).handle = pe.handle ∧
    (tickUnchokeF k c ps pe).pid = pe.pid ∧
    (tickUnchokeF k c ps pe).ip = pe.ip ∧
    (tickUnchokeF k c ps pe).PeerInterested = pe.PeerInterested ∧
    (tickUnchokeF k c ps pe).BytesDownlaodedInChokePeriod = 0 ∧
    (tickUnchokeF k c ps pe).BytesUploadedInChokePeriod = 0 := by
  simp only [tickUnchokeF]
  split
  · exact ⟨rfl, rfl, rfl, rfl, rfl, rfl⟩
  · split
    · exact ⟨rfl, rfl, rfl, rfl, rfl, rfl⟩
    · exact ⟨rfl, rfl, rfl, rfl, rfl, rfl⟩

theorem tick_mem_sorted {c : Bool} {ps : List Peer} {a : Peer}
    (ha : a ∈ (ps.filter consideredPeer).insertionSort (chokeGE c)) :
    a ∈ ps ∧ consideredPeer a = true := by
  have hmem : a ∈ ps.filter consideredPeer :=
    (List.perm_insertionSort (chokeGE c) (ps.filter consideredPeer)).mem_iff.mp ha
  exact ⟨(List.mem_filter.mp hmem).1, (List.mem_filter.mp hmem).2⟩

theorem tick_sorted_handles_nodup {c : Bool} {ps : List Peer}
    (hnd : (ps.map Peer.handle).Nodup) :
    (((ps.filter consideredPeer).insertionSort (chokeGE c)).map Peer.handle).Nodup := by
  have h1 : ((ps.filter consideredPeer).map Peer.handle).Nodup :=
    hnd.sublist ((List.filter_sublist ps).map Peer.handle)
  exact ((List.perm_insertionSort (chokeGE c) (ps.filter consideredPeer)).map
    Peer.handle).nodup_iff.mpr h1

theorem tick_of_handle_mem {c : Bool} {ps : List Peer}
    (hnd : (ps.map Peer.handle).Nodup) {pe : Peer} (hpe : pe ∈ ps) {l : List Peer}
    (hsub : ∀ a ∈ l, a ∈ (ps.filter consideredPeer).insertionSort (chokeGE c))
    (hmem : pe.handle ∈ l.map Peer.handle) : pe ∈ l := by
  rcases List.mem_map.mp hmem with ⟨a, hal, hah⟩
  have hasort := hsub a hal
  have haps : a ∈ ps := (tick_mem_sorted hasort).1
  have : a = pe := List.inj_on_of_nodup_map hnd haps hpe hah
  rw [← this]
  exact hal

/-- C6: after a regular-unchoke tick with `UnchokedPeers = k`, among the
considered peers (interested and not optimistically unchoked) exactly
`min k (number considered)` are unchoked; every unchoked considered peer ranks
at least as high — by downloaded bytes of the period when leeching, uploaded
bytes when seeding — as every choked considered peer; peers outside the
considered set keep their choke state; every peer's identity and interest are
unchanged; and both per-peer choke-period byte counters are reset to zero on
all connected peers. -/
theorem claim_C6_tick_unchoke (k : Nat) (completed : Bool) (ps : List Peer)
    (hnd : (ps.map Peer.handle).Nodup) :
    ((tickUnchoke k completed ps).length = ps.length) ∧
    (∀ q ∈ tickUnchoke k completed ps,
      q.BytesDownlaodedInChokePeriod = 0 ∧ q.BytesUploadedInChokePeriod = 0) ∧
    (∀ (i : Nat) (pi qi : Peer), ps[i]? = some pi → (tickUnchoke k completed ps)[i]? = some qi →
      qi.handle = pi.handle ∧ qi.pid = pi.pid ∧ qi.ip = pi.ip ∧
      qi.PeerInterested = pi.PeerInterested ∧
      (consideredPeer pi = false →
        qi.AmChoking = pi.AmChoking ∧ qi.OptimisticUnchoked = pi.OptimisticUnchoked)) ∧
    (∀ (i j : Nat) (pi pj qi qj : Peer),
      ps[i]? = some pi → ps[j]? = some pj →
      (tickUnchoke k completed ps)[i]? = some qi →
      (tickUnchoke k completed ps)[j]? = some qj →
      consideredPeer pi = true → consideredPeer pj = true →
      qi.AmChoking = false → qj.AmChoking = true →
      chokeKey completed pj ≤ chokeKey completed pi) ∧
    (((tickUnchoke k completed ps).filter
        (fun q => consideredPeer q && !q.AmChoking)).length =
      min k (ps.filter consideredPeer).length) := by
  have htot : IsTotal Peer (chokeGE completed) := inferInstance
  have htrans : IsTrans Peer (chokeGE completed) := inferInstance
  set considered := ps.filter consideredPeer with hconsidered
  set sorted := considered.insertionSort (chokeGE completed) with hsorted
  set uIds := (sorted.take k).map Peer.handle with huIds
  set cIds := (sorted.drop k).map Peer.handle with hcIds
  have hsortmem : ∀ a ∈ sorted, a ∈ ps ∧ consideredPeer a = true := fun a ha =>
    tick_mem_sorted ha
  have hperm : sorted.Perm considered := List.perm_insertionSort _ _
  have hpairwise : sorted.Pairwise (chokeGE completed) := List.sorted_insertionSort _ _
  have hF : ∀ pe : Peer, tickUnchokeF k completed ps pe =
      (if pe.handle ∈ uIds then
        { pe with
            BytesDownlaodedInChokePeriod := 0
            BytesUploadedInChokePeriod := 0
            AmChoking := false
            OptimisticUnchoked := false }
      else if pe.handle ∈ cIds then
        { pe with
            BytesDownlaodedInChokePeriod := 0
            BytesUploadedInChokePeriod := 0
            AmChoking := true }
      else
        { pe with
            BytesDownlaodedInChokePeriod := 0
            BytesUploadedInChokePeriod := 0 }) :=
    fun pe => rfl
  -- Dichotomy facts about handles of peers in `ps`.
  have hK1 : ∀ pe ∈ ps, pe.handle ∈ uIds → pe ∈ sorted.take k := by
    intro pe hpe hu
    exact tick_of_handle_mem hnd hpe (fun a ha => List.mem_of_mem_take ha) hu
  have hK2 : ∀ pe ∈ ps, pe.handle ∈ cIds → pe ∈ sorted.drop k := by
    intro pe hpe hc
    exact tick_of_handle_mem hnd hpe (fun a ha => List.mem_of_mem_drop ha) hc
  have hK3 : ∀ pe ∈ ps, consideredPeer pe = true → pe.handle ∈ uIds ∨ pe.handle ∈ cIds := by
    intro pe hpe hcons
    have hmem : pe ∈ sorted := hperm.mem_iff.mpr (List.mem_filter.mpr ⟨hpe, hcons⟩)
    rw [← List.take_append_drop k sorted, List.mem_append] at hmem
    rcases hmem with h | h
    · exact Or.inl (List.mem_map_of_mem Peer.handle h)
    · exact Or.inr (List.mem_map_of_mem Peer.handle h)
  have hK4 : ∀ pe ∈ ps, consideredPeer pe = false →
      pe.handle ∉ uIds ∧ pe.handle ∉ cIds := by
    intro pe hpe hcons
    constructor
    · intro hu
      have := (hsortmem pe (List.mem_of_mem_take (hK1 pe hpe hu))).2
      rw [hcons] at this
      exact Bool.noConfusion this
    · intro hc
      have := (hsortmem pe (List.mem_of_mem_drop (hK2 pe hpe hc))).2
      rw [hcons] at this
      exact Bool.noConfusion this
  have hK5 : ∀ a ∈ sorted.take k, ∀ b ∈ sorted.drop k, chokeGE completed a b := by
    have hp := hpairwise
    rw [← List.take_append_drop k sorted] at hp
    intro a ha b hb
    exact (List.pairwise_append.mp hp).2.2 a ha b hb
  refine ⟨?_, ?_, ?_, ?_, ?_⟩
  · rw [tickUnchoke_eq_map, List.length_map]
  · intro q hq
    rw [tickUnchoke_eq_map] at hq
    rcases List.mem_map.mp hq with ⟨pe, _, hEq⟩
    subst hEq
    exact ⟨(tickUnchokeF_fields k completed ps pe).2.2.2.2.1,
      (tickUnchokeF_fields k completed ps pe).2.2.2.2.2⟩
  · intro i pi qi hpi hqi
    rw [tickUnchoke_eq_map, List.getElem?_map, hpi] at hqi
    simp only [Option.map_some', Option.some_inj] at hqi
    subst hqi
    have hf := tickUnchokeF_fields k completed ps pi
    refine ⟨hf.1, hf.2.1, hf.2.2.1, hf.2.2.2.1, ?_⟩
    intro hcons
    have hpimem : pi ∈ ps := List.getElem?_mem hpi
    have hnot := hK4 pi hpimem hcons
    rw [hF pi]
    simp [if_neg hnot.1, if_neg hnot.2]
  · intro i j pi pj qi qj hpi hpj hqi hqj hci hcj hqiu hqjc
    rw [tickUnchoke_eq_map, List.getElem?_map, hpi] at hqi
    rw [tickUnchoke_eq_map, List.getElem?_map, hpj] at hqj
    simp only [Option.map_some', Option.some_inj] at hqi hqj
    subst hqi
    subst hqj
    have hpimem : pi ∈ ps := List.getElem?_mem hpi
    have hpjmem : pj ∈ ps := List.getElem?_mem hpj
    have hiu : pi.handle ∈ uIds := by
      by_contra hu
      rcases hK3 pi hpimem hci with h | h
      · exact hu h
      · rw [hF pi] at hqiu
        simp only [if_neg hu, if_pos h] at hqiu
        exact Bool.noConfusion hqiu
    have hjc : pj.handle ∈ cIds := by
      by_cases hu : pj.handle ∈ uIds
      · rw [hF pj] at hqjc
        simp only [if_pos hu] at hqjc
        exact absurd hqjc (by simp)
      · rcases hK3 pj hpjmem hcj with h | h
        · exact absurd h hu
        · exact h
    exact hK5 pi (hK1 pi hpimem hiu) pj (hK2 pj hpjmem hjc)
  · -- Counting: the unchoked considered peers are exactly those whose handle
    -- is among the first `k` of the sorted considered list.
    have hpoint : ∀ pe ∈ ps,
        (consideredPeer (tickUnchokeF k completed ps pe) &&
          !(tickUnchokeF k completed ps pe).AmChoking) =
        decide (pe.handle ∈ uIds) := by
      intro pe hpe
      by_cases hu : pe.handle ∈ uIds
      · have hcons := (hsortmem pe (List.mem_of_mem_take (hK1 pe hpe hu))).2
        have hint : pe.PeerInterested = true := by
          simp only [consideredPeer, Bool.and_eq_true] at hcons
          exact hcons.1
        rw [hF pe]
        simp [if_pos hu, consideredPeer, hint, hu]
      · by_cases hc : pe.handle ∈ cIds
        · rw [hF pe]
          simp [if_neg hu, if_pos hc, hu]
        · have hcons : consideredPeer pe = false := by
            cases hx : consideredPeer pe
            · rfl
            · rcases hK3 pe hpe hx with h | h
              · exact absurd h hu
              · exact absurd h hc
          rw [hF pe]
          simp only [if_neg hu, if_neg hc]
          simp only [consideredPeer] at hcons ⊢
          simp [hcons, hu]
    have huIdsNodup : uIds.Nodup := by
      rw [huIds, List.map_take]
      exact (tick_sorted_handles_nodup hnd).sublist (List.take_sublist k _)
    have huIdsSub : ∀ x ∈ uIds, x ∈ ps.map Peer.handle := by
      intro x hx
      rcases List.mem_map.mp hx with ⟨a, ha, hEq⟩
      subst hEq
      exact List.mem_map_of_mem Peer.handle (hsortmem a (List.mem_of_mem_take ha)).1
    rw [tickUnchoke_eq_map, List.filter_map, List.length_map]
    have hcongr : ps.filter
        ((fun q => consideredPeer q && !q.AmChoking) ∘ tickUnchokeF k completed ps) =
        ps.filter (fun pe => decide (pe.handle ∈ uIds)) := by
      apply List.filter_congr
      intro pe hpe
      exact hpoint pe hpe
    rw [hcongr]
    have hstep3 : (ps.filter (fun pe => decide (pe.handle ∈ uIds))).length =
        ((ps.map Peer.handle).filter (fun h => decide (h ∈ uIds))).length := by
      rw [List.filter_map, List.length_map]
      rfl
    rw [hstep3]
    have hpermIds : ((ps.map Peer.handle).filter (fun h => decide (h ∈ uIds))).Perm uIds := by
      apply (List.perm_ext_iff_of_nodup (hnd.filter _) huIdsNodup).mpr
      intro x
      rw [List.mem_filter]
      constructor
      · intro hx
        exact of_decide_eq_true hx.2
      · intro hx
        exact ⟨huIdsSub x hx, decide_eq_true hx⟩
    rw [hpermIds.length_eq]
    rw [huIds, List.length_map, List.length_take, hperm.length_eq]

/-- Spec scenario 5 evaluated concretely: four interested peers with
download-period bytes 3000, 1000, 4000, 2000 and `UnchokedPeers = 2`; after
the tick the peers with 4000 and 3000 are unchoked, the others are choked,
and all period counters are reset. -/
theorem tickUnchoke_example :
    (tickUnchoke 2 false examplePeers).map
        (fun q => (q.handle, q.AmChoking, q.BytesDownlaodedInChokePeriod)) =
      [(1, false, 0), (2, true, 0), (3, false, 0), (4, true, 0)] := by
  decide

/-- Witness for C6 at the spec's concrete scenario: with two considered peers
to unchoke out of four, exactly two end up unchoked. -/
theorem claim_C6_witness :
    ((examplePeers.map Peer.handle).Nodup) ∧
    ((tickUnchoke 2 false examplePeers).filter
        (fun q => consideredPeer q && !q.AmChoking)).length =
      min 2 (examplePeers.filter consideredPeer).length :=
  ⟨by decide, (claim_C6_tick_unchoke 2 false examplePeers (by decide)).2.2.2.2⟩

theorem dialLoop_fields (cfg : EngineConfig) (fuel : Nat) :
    ∀ s : EngineState,
      (dialLoop cfg fuel s).bitfield = s.bitfield ∧
      (dialLoop cfg fuel s).peers = s.peers ∧
      (dialLoop cfg fuel s).incomingPeers = s.incomingPeers ∧
      (dialLoop cfg fuel s).outgoingPeers = s.outgoingPeers ∧
      (dialLoop cfg fuel s).peerIDs = s.peerIDs ∧
      (dialLoop cfg fuel s).incomingHandshakers = s.incomingHandshakers ∧
      (dialLoop cfg fuel s).completed = s.completed ∧
      (dialLoop cfg fuel s).nextHandle = s.nextHandle ∧
      (dialLoop cfg fuel s).sent = s.sent := by
  induction fuel with
  | zero => intro s; exact ⟨rfl, rfl, rfl, rfl, rfl, rfl, rfl, rfl, rfl⟩
  | succ fuel ih =>
    intro s
    rw [dialLoop]
    split
    · cases haddr : s.addrList with
      | nil => exact ⟨rfl, rfl, rfl, rfl, rfl, rfl, rfl, rfl, rfl⟩
      | cons ip rest =>
        by_cases hmem : ip ∈ s.connectedPeerIPs
        · simp only [if_pos hmem]
          exact ih _
        · simp only [if_neg hmem]
          exact ih _
    · exact ⟨rfl, rfl, rfl, rfl, rfl, rfl, rfl, rfl, rfl⟩

/-- The dial loop preserves the engine invariant: every IP it reserves is
fresh and paired with a new outgoing handshaker. -/
theorem dialLoop_inv (cfg : EngineConfig) (fuel : Nat) :
    ∀ s : EngineState, engineInv s → engineInv (dialLoop cfg fuel s) := by
  induction fuel with
  | zero => intro s hinv; exact hinv
  | succ fuel ih =>
    intro s hinv
    rw [dialLoop]
    split
    · cases haddr : s.addrList with
      | nil => exact hinv
      | cons ip rest =>
        by_cases hmem : ip ∈ s.connectedPeerIPs
        · simp only [if_pos hmem]
          apply ih
          obtain ⟨hmaps, hhandle, hhs, hnd⟩ := hinv
          exact ⟨hmaps, hhandle, hhs, hnd⟩
        · simp only [if_neg hmem]
          apply ih
          obtain ⟨⟨hfwd, hexact, hpar⟩, hhandle, hhs, hnd⟩ := hinv
          refine ⟨⟨?_, hexact, hpar⟩, hhandle, ?_, ?_⟩
          · intro p hp
            exact ⟨(hfwd p hp).1, Finset.mem_insert_of_mem (hfwd p hp).2⟩
          · intro ip2 hip2
            simp only [List.append_assoc, List.mem_append, List.mem_singleton] at hip2
            rcases hip2 with h | h | h
            · have := hhs ip2 (List.mem_append.mpr (Or.inl h))
              exact ⟨Finset.mem_insert_of_mem this.1, this.2⟩
            · have := hhs ip2 (List.mem_append.mpr (Or.inr h))
              exact ⟨Finset.mem_insert_of_mem this.1, this.2⟩
            · subst h
              refine ⟨Finset.mem_insert_self _ _, ?_⟩
              intro p hp hEq
              exact hmem (hEq ▸ (hfwd p hp).2)
          · simp only [List.append_assoc]
            rw [List.nodup_append]
            rw [List.nodup_append] at hnd
            refine ⟨hnd.1, ?_, ?_⟩
            · rw [List.nodup_append]
              refine ⟨hnd.2.1, List.nodup_singleton ip, ?_⟩
              intro a ha
              simp only [List.mem_singleton]
              intro hEq
              subst hEq
              exact hmem (hhs a (List.mem_append.mpr (Or.inr ha))).1
            · intro a ha
              simp only [List.mem_append, List.mem_singleton]
              intro hcon
              rcases hcon with h | h
              · exact hnd.2.2 ha h
              · subst h
                exact hmem (hhs a (List.mem_append.mpr (Or.inl ha))).1
    · exact hinv

theorem dialAddresses_fields (cfg : EngineConfig) (s : EngineState) :
    (dialAddresses cfg s).bitfield = s.bitfield ∧
    (dialAddresses cfg s).peers = s.peers ∧
    (dialAddresses cfg s).incomingPeers = s.incomingPeers ∧
    (dialAddresses cfg s).outgoingPeers = s.outgoingPeers ∧
    (dialAddresses cfg s).peerIDs = s.peerIDs ∧
    (dialAddresses cfg s).incomingHandshakers = s.incomingHandshakers ∧
    (dialAddresses cfg s).completed = s.completed ∧
    (dialAddresses cfg s).nextHandle = s.nextHandle ∧
    (dialAddresses cfg s).sent = s.sent := by
  unfold dialAddresses
  split
  · exact ⟨rfl, rfl, rfl, rfl, rfl, rfl, rfl, rfl, rfl⟩
  · exact dialLoop_fields cfg s.addrList.length s

theorem dialAddresses_inv (cfg : EngineConfig) (s : EngineState)
    (hinv : engineInv s) : engineInv (dialAddresses cfg s) := by
  unfold dialAddresses
  split
  · exact hinv
  · exact dialLoop_inv cfg s.addrList.length s hinv

/-- The pairwise-distinctness relation on peers is symmetric. -/
theorem peerDistinct_symm :
    Symmetric (fun p q : Peer => p.handle ≠ q.handle ∧ p.pid ≠ q.pid ∧ p.ip ≠ q.ip) :=
  fun _ _ h => ⟨h.1.symm, h.2.1.symm, h.2.2.symm⟩

theorem closePeerMaps_fields (h : Nat) (s : EngineState) :
    (closePeerMaps h s).bitfield = s.bitfield ∧
    (closePeerMaps h s).incomingHandshakers = s.incomingHandshakers ∧
    (closePeerMaps h s).outgoingHandshakers = s.outgoingHandshakers ∧
    (closePeerMaps h s).addrList = s.addrList ∧
    (closePeerMaps h s).completed = s.completed ∧
    (closePeerMaps h s).nextHandle = s.nextHandle ∧
    (closePeerMaps h s).sent = s.sent := by
  unfold closePeerMaps
  cases s.peers.find? (fun p => p.handle == h) with
  | none => exact ⟨rfl, rfl, rfl, rfl, rfl, rfl, rfl⟩
  | some p => exact ⟨rfl, rfl, rfl, rfl, rfl, rfl, rfl⟩

theorem closePeerMaps_inv (h : Nat) (s : EngineState) (hinv : engineInv s) :
    engineInv (closePeerMaps h s) := by
  obtain ⟨⟨hfwd, hexact, hpar⟩, hhandle, hhs, hnd⟩ := hinv
  unfold closePeerMaps
  cases hf : s.peers.find? (fun p => p.handle == h) with
  | none => exact ⟨⟨hfwd, hexact, hpar⟩, hhandle, hhs, hnd⟩
  | some p =>
    have hpmem : p ∈ s.peers := List.mem_of_find?_eq_some hf
    have hph : p.handle = h := by
      have := List.find?_some hf
      simpa using this
    have hdist : ∀ q ∈ s.peers, q ≠ p → q.handle ≠ p.handle ∧ q.pid ≠ p.pid ∧ q.ip ≠ p.ip :=
      fun q hq hne => List.Pairwise.forall peerDistinct_symm hpar hq hpmem hne
    refine ⟨⟨?_, ?_, ?_⟩, ?_, ?_, hnd⟩
    · intro q hq
      have hq' : q ∈ s.peers := List.mem_of_mem_filter hq
      have hqh : (q.handle ≠ h) := by
        have := List.of_mem_filter hq
        simpa using this
      have hqp : q ≠ p := fun hEq => hqh (hEq ▸ hph)
      have hd := hdist q hq' hqp
      exact ⟨Finset.mem_erase.mpr ⟨hd.2.1, (hfwd q hq').1⟩,
        Finset.mem_erase.mpr ⟨hd.2.2, (hfwd q hq').2⟩⟩
    · intro id hid
      have hid' := Finset.mem_erase.mp hid
      rcases hexact id hid'.2 with ⟨q, hq, hqid⟩
      have hqp : q ≠ p := fun hEq => hid'.1 ((hEq ▸ hqid : p.pid = id)).symm
      refine ⟨q, ?_, hqid⟩
      apply List.mem_filter.mpr
      refine ⟨hq, ?_⟩
      have hd := hdist q hq hqp
      simpa [hph] using hd.1
    · exact hpar.sublist (List.filter_sublist s.peers)
    · intro q hq
      exact hhandle q (List.mem_of_mem_filter hq)
    · intro ip hip
      have hold := hhs ip hip
      refine ⟨Finset.mem_erase.mpr ⟨fun hEq => hold.2 p hpmem hEq.symm, hold.1⟩, ?_⟩
      · intro q hq
        exact hold.2 q (List.mem_of_mem_filter hq)

theorem closePeer_fields (cfg : EngineConfig) (h : Nat) (s : EngineState) :
    (closePeer cfg h s).bitfield = s.bitfield ∧
    (closePeer cfg h s).completed = s.completed ∧
    (closePeer cfg h s).sent = s.sent := by
  unfold closePeer
  have hd := dialAddresses_fields cfg (closePeerMaps h s)
  have hc := closePeerMaps_fields h s
  exact ⟨hd.1.trans hc.1, (hd.2.2.2.2.2.2.1).trans hc.2.2.2.2.1,
    (hd.2.2.2.2.2.2.2.2).trans hc.2.2.2.2.2.2⟩

theorem closePeer_inv (cfg : EngineConfig) (h : Nat) (s : EngineState)
    (hinv : engineInv s) : engineInv (closePeer cfg h s) :=
  dialAddresses_inv cfg _ (closePeerMaps_inv h s hinv)

theorem foldl_inv {α : Type} (g : EngineState → α → EngineState)
    (hg : ∀ st a, engineInv st → engineInv (g st a)) :
    ∀ (l : List α) (st : EngineState), engineInv st → engineInv (l.foldl g st) := by
  intro l
  induction l with
  | nil => intro st h; exact h
  | cons a rest ih => intro st h; exact ih (g st a) (hg st a h)

theorem foldl_bitfield {α : Type} (g : EngineState → α → EngineState)
    (hg : ∀ st a, (g st a).bitfield = st.bitfield) :
    ∀ (l : List α) (st : EngineState), (l.foldl g st).bitfield = st.bitfield := by
  intro l
  induction l with
  | nil => intro st; rfl
  | cons a rest ih => intro st; rw [List.foldl_cons, ih (g st a), hg st a]

theorem stopTorrent_inv (s : EngineState) (hinv : engineInv s) : engineInv (stopTorrent s) :=
  foldl_inv _ (fun st h hi => closePeerMaps_inv h st hi) _ s hinv

theorem stopTorrent_bitfield (s : EngineState) : (stopTorrent s).bitfield = s.bitfield :=
  foldl_bitfield _ (fun st h => (closePeerMaps_fields h st).1) _ s

theorem unchokePeerByHandle_fields (h : Nat) (s : EngineState) :
    (unchokePeerByHandle h s).bitfield = s.bitfield ∧
    (unchokePeerByHandle h s).peerIDs = s.peerIDs ∧
    (unchokePeerByHandle h s).connectedPeerIPs = s.connectedPeerIPs ∧
    (unchokePeerByHandle h s).incomingHandshakers = s.incomingHandshakers ∧
    (unchokePeerByHandle h s).outgoingHandshakers = s.outgoingHandshakers ∧
    (unchokePeerByHandle h s).completed = s.completed ∧
    (unchokePeerByHandle h s).nextHandle = s.nextHandle := by
  unfold unchokePeerByHandle
  cases hf : s.peers.find? (fun p => p.handle == h) with
  | none => simp [hf]
  | some p =>
    simp only [hf]
    by_cases hch : p.AmChoking = true <;> simp [hch]

/-- Replacing the peer list by an identity-preserving map keeps the engine
invariant. -/
theorem engineInv_map_peers (s : EngineState) (g : Peer → Peer)
    (hg : ∀ p, (g p).handle = p.handle ∧ (g p).pid = p.pid ∧ (g p).ip = p.ip)
    (hinv : engineInv s) : engineInv { s with peers := s.peers.map g } := by
  obtain ⟨⟨hfwd, hexact, hpar⟩, hhandle, hhs, hnd⟩ := hinv
  refine ⟨⟨?_, ?_, ?_⟩, ?_, ?_, hnd⟩
  · intro q hq
    rcases List.mem_map.mp hq with ⟨p, hp, hEq⟩
    subst hEq
    rw [(hg p).2.1, (hg p).2.2]
    exact hfwd p hp
  · intro id hid
    rcases hexact id hid with ⟨p, hp, hpid⟩
    exact ⟨g p, List.mem_map_of_mem g hp, (hg p).2.1.trans hpid⟩
  · rw [List.pairwise_map]
    apply hpar.imp
    intro a b hab
    rw [(hg a).1, (hg b).1, (hg a).2.1, (hg b).2.1, (hg a).2.2, (hg b).2.2]
    exact hab
  · intro q hq
    rcases List.mem_map.mp hq with ⟨p, hp, hEq⟩
    subst hEq
    rw [(hg p).1]
    exact hhandle p hp
  · intro ip hip
    refine ⟨(hhs ip hip).1, ?_⟩
    intro q hq
    rcases List.mem_map.mp hq with ⟨p, hp, hEq⟩
    subst hEq
    rw [(hg p).2.2]
    exact (hhs ip hip).2 p hp

theorem unchokePeerByHandle_inv (h : Nat) (s : EngineState) (hinv : engineInv s) :
    engineInv (unchokePeerByHandle h s) := by
  unfold unchokePeerByHandle
  cases hf : s.peers.find? (fun p => p.handle == h) with
  | none => simp only [hf]; exact hinv
  | some p =>
    simp only [hf]
    by_cases hch : p.AmChoking = true
    · simp only [if_pos hch]
      have := engineInv_map_peers s
        (fun q => if q.handle == h then { q with AmChoking := false } else q)
        (fun q => by by_cases hq : (q.handle == h) = true <;> simp [hq]) hinv
      obtain ⟨hmaps, hhandle, hhs, hnd⟩ := this
      exact ⟨hmaps, hhandle, hhs, hnd⟩
    · simp only [if_neg hch]
      exact hinv

theorem startPeerAdd_inv (pid ip : Nat) (incoming : Bool)
    (s : EngineState) (hinv : engineInv s)
    (hdup : pid ∉ s.peerIDs)
    (hip : ip ∈ s.connectedPeerIPs)
    (hipfresh : ∀ p ∈ s.peers, p.ip ≠ ip)
    (hipnoths : ip ∉ s.incomingHandshakers ++ s.outgoingHandshakers) :
    engineInv (startPeerAdd pid ip incoming s) := by
  obtain ⟨⟨hfwd, hexact, hpar⟩, hhandle, hhs, hnd⟩ := hinv
  refine ⟨⟨?_, ?_, ?_⟩, ?_, ?_, hnd⟩
  · intro q hq
    have hq2 : q ∈ s.peers ++ [freshPeer pid ip s.nextHandle] := hq
    simp only [List.mem_append, List.mem_singleton] at hq2
    rcases hq2 with hq2 | hq2
    · exact ⟨Finset.mem_insert_of_mem (hfwd q hq2).1, (hfwd q hq2).2⟩
    · subst hq2
      exact ⟨Finset.mem_insert_self _ _, hip⟩
  · intro id hid
    have hid2 : id ∈ insert pid s.peerIDs := hid
    rcases Finset.mem_insert.mp hid2 with h | h
    · subst h
      exact ⟨freshPeer id ip s.nextHandle,
        List.mem_append.mpr (Or.inr (List.mem_singleton.mpr rfl)), rfl⟩
    · rcases hexact id h with ⟨q, hq, hqid⟩
      exact ⟨q, List.mem_append.mpr (Or.inl hq), hqid⟩
  · show List.Pairwise _ (s.peers ++ [freshPeer pid ip s.nextHandle])
    rw [List.pairwise_append]
    refine ⟨hpar, List.pairwise_singleton _ _, ?_⟩
    intro q hq pe hpe
    simp only [List.mem_singleton] at hpe
    subst hpe
    refine ⟨?_, ?_, ?_⟩
    · exact Nat.ne_of_lt (hhandle q hq)
    · intro hEq
      have hqp : q.pid = pid := hEq
      exact hdup (hqp ▸ (hfwd q hq).1)
    · exact hipfresh q hq
  · intro q hq
    have hq2 : q ∈ s.peers ++ [freshPeer pid ip s.nextHandle] := hq
    simp only [List.mem_append, List.mem_singleton] at hq2
    show q.handle < s.nextHandle + 1
    rcases hq2 with hq2 | hq2
    · exact Nat.lt_succ_of_lt (hhandle q hq2)
    · subst hq2
      exact Nat.lt_succ_self _
  · intro ip2 hip2
    have hip3 : ip2 ∈ s.incomingHandshakers ++ s.outgoingHandshakers := hip2
    refine ⟨(hhs ip2 hip3).1, ?_⟩
    intro q hq
    have hq2 : q ∈ s.peers ++ [freshPeer pid ip s.nextHandle] := hq
    simp only [List.mem_append, List.mem_singleton] at hq2
    rcases hq2 with hq2 | hq2
    · exact (hhs ip2 hip3).2 q hq2
    · subst hq2
      show ip ≠ ip2
      intro hEq
      exact hipnoths (hEq ▸ hip3)

theorem startPeer_bitfield (cfg : EngineConfig) (pid ip : Nat) (incoming : Bool)
    (s : EngineState) : (startPeer cfg pid ip incoming s).bitfield = s.bitfield := by
  unfold startPeer
  by_cases hdup : pid ∈ s.peerIDs
  · rw [if_pos hdup]
    exact (dialAddresses_fields cfg s).1
  · rw [if_neg hdup]
    dsimp only
    split
    · exact (unchokePeerByHandle_fields _ _).1
    · rfl

theorem startPeer_inv (cfg : EngineConfig) (pid ip : Nat) (incoming : Bool)
    (s : EngineState) (hinv : engineInv s)
    (hip : ip ∈ s.connectedPeerIPs)
    (hipfresh : ∀ p ∈ s.peers, p.ip ≠ ip)
    (hipnoths : ip ∉ s.incomingHandshakers ++ s.outgoingHandshakers) :
    engineInv (startPeer cfg pid ip incoming s) := by
  unfold startPeer
  by_cases hdup : pid ∈ s.peerIDs
  · rw [if_pos hdup]
    exact dialAddresses_inv cfg s hinv
  · rw [if_neg hdup]
    dsimp only
    have hinv1 : engineInv (startPeerAdd pid ip incoming s) :=
      startPeerAdd_inv pid ip incoming s hinv hdup hip hipfresh hipnoths
    split
    · exact unchokePeerByHandle_inv _ _ hinv1
    · exact hinv1

theorem checkCompletion_bitfield (cfg : EngineConfig) (s : EngineState) :
    (checkCompletion cfg s).bitfield = s.bitfield := by
  unfold checkCompletion
  split
  · rfl
  · split
    · exact foldl_bitfield _ (fun st h => (closePeer_fields cfg h st).1) _ _
    · rfl

theorem checkCompletion_inv (cfg : EngineConfig) (s : EngineState) (hinv : engineInv s) :
    engineInv (checkCompletion cfg s) := by
  unfold checkCompletion
  split
  · exact hinv
  · split
    · have hinv1 : engineInv { s with completed := true } := by
        obtain ⟨hmaps, hhandle, hhs, hnd⟩ := hinv
        exact ⟨hmaps, hhandle, hhs, hnd⟩
      exact foldl_inv _ (fun st h hi => closePeer_inv cfg h st hi) _ _ hinv1
    · exact hinv

/-- One event-loop dispatch preserves the engine invariant. -/
theorem engineStep_inv (cfg : EngineConfig) (e : EngineEvent) (s s' : EngineState)
    (hinv : engineInv s) (hstep : engineStep cfg e s = .ok s') : engineInv s' := by
  obtain ⟨⟨hfwd, hexact, hpar⟩, hhandle, hhs, hnd⟩ := hinv
  cases e with
  | incomingConn ip =>
    by_cases hcap : cfg.maxPeerAccept ≤ s.incomingHandshakers.length + s.incomingPeers.length
    · simp only [engineStep, if_pos hcap, Except.ok.injEq] at hstep
      subst hstep
      exact ⟨⟨hfwd, hexact, hpar⟩, hhandle, hhs, hnd⟩
    · by_cases hbl : ip ∈ cfg.blocked
      · simp only [engineStep, if_neg hcap, if_pos hbl, Except.ok.injEq] at hstep
        subst hstep
        exact ⟨⟨hfwd, hexact, hpar⟩, hhandle, hhs, hnd⟩
      · by_cases hdup : ip ∈ s.connectedPeerIPs
        · simp only [engineStep, if_neg hcap, if_neg hbl, if_pos hdup,
            Except.ok.injEq] at hstep
          subst hstep
          exact ⟨⟨hfwd, hexact, hpar⟩, hhandle, hhs, hnd⟩
        · simp only [engineStep, if_neg hcap, if_neg hbl, if_neg hdup,
            Except.ok.injEq] at hstep
          subst hstep
          refine ⟨⟨?_, hexact, hpar⟩, hhandle, ?_, ?_⟩
          · intro p hp
            exact ⟨(hfwd p hp).1, Finset.mem_insert_of_mem (hfwd p hp).2⟩
          · intro ip2 hip2
            simp only [List.append_assoc, List.mem_append, List.mem_singleton] at hip2
            rcases hip2 with h | h | h
            · have := hhs ip2 (List.mem_append.mpr (Or.inl h))
              exact ⟨Finset.mem_insert_of_mem this.1, this.2⟩
            · subst h
              refine ⟨Finset.mem_insert_self _ _, ?_⟩
              intro p hp hEq
              exact hdup (hEq ▸ (hfwd p hp).2)
            · have := hhs ip2 (List.mem_append.mpr (Or.inr h))
              exact ⟨Finset.mem_insert_of_mem this.1, this.2⟩
          · have hipnot : ip ∉ s.incomingHandshakers ++ s.outgoingHandshakers := by
              intro hmem
              exact hdup (hhs ip hmem).1
            have hperm : ((s.incomingHandshakers ++ [ip]) ++ s.outgoingHandshakers).Perm
                ((s.incomingHandshakers ++ s.outgoingHandshakers) ++ [ip]) := by
              rw [List.append_assoc, List.append_assoc]
              exact List.Perm.append_left _ List.perm_append_comm
            show ((s.incomingHandshakers ++ [ip]) ++ s.outgoingHandshakers).Nodup
            rw [hperm.nodup_iff]
            rw [List.nodup_append]
            refine ⟨hnd, List.nodup_singleton ip, ?_⟩
            intro a ha
            simp only [List.mem_singleton]
            intro hEq
            subst hEq
            exact hipnot ha
  | incomingHSResult ip pid ok =>
    by_cases hmem : ip ∈ s.incomingHandshakers
    · have hs1 : engineInv { s with incomingHandshakers := s.incomingHandshakers.erase ip } := by
        have hndinc : s.incomingHandshakers.Nodup := (List.nodup_append.mp hnd).1
        refine ⟨⟨hfwd, hexact, hpar⟩, hhandle, ?_, ?_⟩
        · intro ip2 hip2
          simp only [List.mem_append] at hip2
          rcases hip2 with h | h
          · exact hhs ip2 (List.mem_append.mpr (Or.inl (List.mem_of_mem_erase h)))
          · exact hhs ip2 (List.mem_append.mpr (Or.inr h))
        · exact hnd.sublist ((s.incomingHandshakers.erase_sublist ip).append
            (List.Sublist.refl _))
      cases ok with
      | true =>
        simp only [engineStep, if_pos hmem, if_true, Bool.false_eq_true, if_false,
            Except.ok.injEq] at hstep
        subst hstep
        apply startPeer_inv cfg pid ip true _ hs1
        · exact (hhs ip (List.mem_append.mpr (Or.inl hmem))).1
        · exact (hhs ip (List.mem_append.mpr (Or.inl hmem))).2
        · show ip ∉ s.incomingHandshakers.erase ip ++ s.outgoingHandshakers
          intro hcon
          simp only [List.mem_append] at hcon
          have hndinc : s.incomingHandshakers.Nodup := (List.nodup_append.mp hnd).1
          rcases hcon with h | h
          · exact ((List.Nodup.mem_erase_iff hndinc).mp h).1 rfl
          · exact (List.nodup_append.mp hnd).2.2 hmem h
      | false =>
        simp only [engineStep, if_pos hmem, if_true, Bool.false_eq_true, if_false,
            Except.ok.injEq] at hstep
        subst hstep
        obtain ⟨⟨hfwd1, hexact1, hpar1⟩, hhandle1, hhs1, hnd1⟩ := hs1
        refine ⟨⟨?_, hexact1, hpar1⟩, hhandle1, ?_, hnd1⟩
        · intro p hp
          refine ⟨(hfwd1 p hp).1, Finset.mem_erase.mpr ⟨?_, (hfwd1 p hp).2⟩⟩
          intro hEq
          exact (hhs ip (List.mem_append.mpr (Or.inl hmem))).2 p hp hEq
        · intro ip2 hip2
          have hndinc : s.incomingHandshakers.Nodup := (List.nodup_append.mp hnd).1
          have hne : ip2 ≠ ip := by
            simp only [List.mem_append] at hip2
            rcases hip2 with h | h
            · exact ((List.Nodup.mem_erase_iff hndinc).mp h).1
            · intro hEq
              exact (List.nodup_append.mp hnd).2.2 hmem (hEq ▸ h)
          exact ⟨Finset.mem_erase.mpr ⟨hne, (hhs1 ip2 hip2).1⟩, (hhs1 ip2 hip2).2⟩
    · simp only [engineStep, if_neg hmem, Except.ok.injEq] at hstep
      subst hstep
      exact ⟨⟨hfwd, hexact, hpar⟩, hhandle, hhs, hnd⟩
  | outgoingHSResult ip pid ok =>
    by_cases hmem : ip ∈ s.outgoingHandshakers
    · have hs1 : engineInv { s with outgoingHandshakers := s.outgoingHandshakers.erase ip } := by
        refine ⟨⟨hfwd, hexact, hpar⟩, hhandle, ?_, ?_⟩
        · intro ip2 hip2
          simp only [List.mem_append] at hip2
          rcases hip2 with h | h
          · exact hhs ip2 (List.mem_append.mpr (Or.inl h))
          · exact hhs ip2 (List.mem_append.mpr (Or.inr (List.mem_of_mem_erase h)))
        · exact hnd.sublist ((List.Sublist.refl _).append
            (s.outgoingHandshakers.erase_sublist ip))
      have hndout : s.outgoingHandshakers.Nodup := (List.nodup_append.mp hnd).2.1
      cases ok with
      | true =>
        simp only [engineStep, if_pos hmem, if_true, Bool.false_eq_true, if_false,
            Except.ok.injEq] at hstep
        subst hstep
        apply startPeer_inv cfg pid ip false _ hs1
        · exact (hhs ip (List.mem_append.mpr (Or.inr hmem))).1
        · exact (hhs ip (List.mem_append.mpr (Or.inr hmem))).2
        · show ip ∉ s.incomingHandshakers ++ s.outgoingHandshakers.erase ip
          intro hcon
          simp only [List.mem_append] at hcon
          rcases hcon with h | h
          · exact (List.nodup_append.mp hnd).2.2 h hmem
          · exact ((List.Nodup.mem_erase_iff hndout).mp h).1 rfl
      | false =>
        simp only [engineStep, if_pos hmem, if_true, Bool.false_eq_true, if_false,
            Except.ok.injEq] at hstep
        subst hstep
        apply dialAddresses_inv
        obtain ⟨⟨hfwd1, hexact1, hpar1⟩, hhandle1, hhs1, hnd1⟩ := hs1
        refine ⟨⟨?_, hexact1, hpar1⟩, hhandle1, ?_, hnd1⟩
        · intro p hp
          refine ⟨(hfwd1 p hp).1, Finset.mem_erase.mpr ⟨?_, (hfwd1 p hp).2⟩⟩
          intro hEq
          exact (hhs ip (List.mem_append.mpr (Or.inr hmem))).2 p hp hEq
        · intro ip2 hip2
          have hne : ip2 ≠ ip := by
            simp only [List.mem_append] at hip2
            rcases hip2 with h | h
            · intro hEq
              exact (List.nodup_append.mp hnd).2.2 (hEq ▸ h) hmem
            · exact ((List.Nodup.mem_erase_iff hndout).mp h).1
          exact ⟨Finset.mem_erase.mpr ⟨hne, (hhs1 ip2 hip2).1⟩, (hhs1 ip2 hip2).2⟩
    · simp only [engineStep, if_neg hmem, Except.ok.injEq] at hstep
      subst hstep
      exact ⟨⟨hfwd, hexact, hpar⟩, hhandle, hhs, hnd⟩
  | peerDisconnected h =>
    simp only [engineStep, Except.ok.injEq] at hstep
    subst hstep
    exact closePeer_inv cfg h s ⟨⟨hfwd, hexact, hpar⟩, hhandle, hhs, hnd⟩
  | pieceWriterResult idx ok =>
    cases ok with
    | true =>
      by_cases hbit : idx ∈ s.bitfield
      · simp only [engineStep, if_true, if_pos hbit] at hstep
        exact absurd hstep (by simp)
      · simp only [engineStep, if_true, if_neg hbit, Except.ok.injEq] at hstep
        subst hstep
        apply checkCompletion_inv
        exact ⟨⟨hfwd, hexact, hpar⟩, hhandle, hhs, hnd⟩
    | false =>
      simp only [engineStep, Bool.false_eq_true, if_false, Except.ok.injEq] at hstep
      subst hstep
      exact stopTorrent_inv s ⟨⟨hfwd, hexact, hpar⟩, hhandle, hhs, hnd⟩
  | newAddrs addrs =>
    by_cases hcom : s.completed
    · simp only [engineStep, if_pos hcom, Except.ok.injEq] at hstep
      subst hstep
      exact ⟨⟨hfwd, hexact, hpar⟩, hhandle, hhs, hnd⟩
    · simp only [engineStep, if_neg hcom, Except.ok.injEq] at hstep
      subst hstep
      apply dialAddresses_inv
      exact ⟨⟨hfwd, hexact, hpar⟩, hhandle, hhs, hnd⟩
  | unchokeTick =>
    simp only [engineStep, Except.ok.injEq] at hstep
    subst hstep
    rw [tickUnchoke_eq_map]
    have := engineInv_map_peers s (tickUnchokeF cfg.unchokedPeers s.completed s.peers)
      (fun p => ⟨(tickUnchokeF_fields _ _ _ p).1, (tickUnchokeF_fields _ _ _ p).2.1,
        (tickUnchokeF_fields _ _ _ p).2.2.1⟩)
      ⟨⟨hfwd, hexact, hpar⟩, hhandle, hhs, hnd⟩
    exact this
  | peerInterestedMsg h v =>
    simp only [engineStep, Except.ok.injEq] at hstep
    subst hstep
    exact engineInv_map_peers s _
      (fun p => by by_cases hp : (p.handle == h) = true <;> simp [hp])
      ⟨⟨hfwd, hexact, hpar⟩, hhandle, hhs, hnd⟩
  | stopCommand =>
    simp only [engineStep, Except.ok.injEq] at hstep
    subst hstep
    exact stopTorrent_inv s ⟨⟨hfwd, hexact, hpar⟩, hhandle, hhs, hnd⟩
  | otherEvent =>
    simp only [engineStep, Except.ok.injEq] at hstep
    subst hstep
    exact ⟨⟨hfwd, hexact, hpar⟩, hhandle, hhs, hnd⟩

/-- One event-loop dispatch either leaves the bitfield unchanged or inserts the
index of a freshly written piece that was absent. -/
theorem engineStep_bitfield (cfg : EngineConfig) (e : EngineEvent) (s s' : EngineState)
    (hstep : engineStep cfg e s = .ok s') :
    s'.bitfield = s.bitfield ∨
      ∃ i, i ∉ s.bitfield ∧ e = EngineEvent.pieceWriterResult i true ∧
        s'.bitfield = insert i s.bitfield := by
  cases e with
  | incomingConn ip =>
    left
    simp only [engineStep] at hstep
    split at hstep
    · cases hstep; rfl
    · split at hstep
      · cases hstep; rfl
      · split at hstep
        · cases hstep; rfl
        · cases hstep; rfl
  | incomingHSResult ip pid ok =>
    left
    simp only [engineStep] at hstep
    split at hstep
    · split at hstep
      · cases hstep
        exact startPeer_bitfield cfg pid ip true _
      · cases hstep; rfl
    · cases hstep; rfl
  | outgoingHSResult ip pid ok =>
    left
    simp only [engineStep] at hstep
    split at hstep
    · split at hstep
      · cases hstep
        exact startPeer_bitfield cfg pid ip false _
      · cases hstep
        exact (dialAddresses_fields cfg _).1
    · cases hstep; rfl
  | peerDisconnected h =>
    left
    simp only [engineStep] at hstep
    cases hstep
    exact (closePeer_fields cfg h s).1
  | pieceWriterResult idx ok =>
    cases ok with
    | true =>
      by_cases hbit : idx ∈ s.bitfield
      · simp only [engineStep, if_true, if_pos hbit] at hstep
        exact absurd hstep (by simp)
      · simp only [engineStep, if_true, if_neg hbit, Except.ok.injEq] at hstep
        subst hstep
        right
        exact ⟨idx, hbit, rfl, by rw [checkCompletion_bitfield]⟩
    | false =>
      simp only [engineStep, Bool.false_eq_true, if_false, Except.ok.injEq] at hstep
      subst hstep
      left
      exact stopTorrent_bitfield s
  | newAddrs addrs =>
    left
    simp only [engineStep] at hstep
    split at hstep
    · cases hstep; rfl
    · cases hstep
      exact (dialAddresses_fields cfg _).1
  | unchokeTick =>
    left
    simp only [engineStep] at hstep
    cases hstep; rfl
  | peerInterestedMsg h v =>
    left
    simp only [engineStep] at hstep
    cases hstep; rfl
  | stopCommand =>
    left
    simp only [engineStep] at hstep
    cases hstep
    exact stopTorrent_bitfield s
  | otherEvent =>
    left
    simp only [engineStep] at hstep
    cases hstep; rfl

/-- Running an appended trace first runs the prefix. -/
theorem runEngineFrom_append (cfg : EngineConfig) (es₁ : List EngineEvent) :
    ∀ s es₂ t₁, runEngineFrom cfg s es₁ = .ok t₁ →
      runEngineFrom cfg s (es₁ ++ es₂) = runEngineFrom cfg t₁ es₂ := by
  induction es₁ with
  | nil =>
    intro s es₂ t₁ h
    simp only [runEngineFrom, Except.ok.injEq] at h
    subst h
    rfl
  | cons e rest ih =>
    intro s es₂ t₁ h
    simp only [runEngineFrom] at h
    rw [List.cons_append]
    cases hstep : engineStep cfg e s with
    | ok t =>
      simp only [hstep] at h
      show (match engineStep cfg e s with
        | .ok u => runEngineFrom cfg u (rest ++ es₂)
        | .error m => Except.error m) = runEngineFrom cfg t₁ es₂
      rw [hstep]
      exact ih t es₂ t₁ h
    | error m =>
      simp only [hstep] at h
      exact absurd h (by simp)

/-- Along a successful run, the bitfield only accumulates bits. -/
theorem runEngineFrom_mono (cfg : EngineConfig) (es : List EngineEvent) :
    ∀ s t, runEngineFrom cfg s es = .ok t → ∀ i ∈ s.bitfield, i ∈ t.bitfield := by
  induction es with
  | nil =>
    intro s t h i hi
    simp only [runEngineFrom, Except.ok.injEq] at h
    subst h
    exact hi
  | cons e rest ih =>
    intro s t h i hi
    simp only [runEngineFrom] at h
    cases hstep : engineStep cfg e s with
    | ok u =>
      simp only [hstep] at h
      rcases engineStep_bitfield cfg e s u hstep with hbf | ⟨j, _, _, hbf⟩
      · exact ih u t h i (by rw [hbf]; exact hi)
      · exact ih u t h i (by rw [hbf]; exact Finset.mem_insert_of_mem hi)
    | error m =>
      simp only [hstep] at h
      exact absurd h (by simp)

/-- The initial Running-phase state satisfies the loop invariant. -/
theorem engineInit_inv : engineInv engineInit := by
  refine ⟨⟨?_, ?_, ?_⟩, ?_, ?_, ?_⟩ <;> decide

/-- The loop invariant is preserved along every successful run. -/
theorem runEngineFrom_inv (cfg : EngineConfig) (es : List EngineEvent) :
    ∀ s t, engineInv s → runEngineFrom cfg s es = .ok t → engineInv t := by
  induction es with
  | nil =>
    intro s t hinv h
    simp only [runEngineFrom, Except.ok.injEq] at h
    subst h
    exact hinv
  | cons e rest ih =>
    intro s t hinv h
    simp only [runEngineFrom] at h
    cases hstep : engineStep cfg e s with
    | ok u =>
      simp only [hstep] at h
      exact ih u t (engineStep_inv cfg e s u hinv hstep) h
    | error m =>
      simp only [hstep] at h
      exact absurd h (by simp)

/-- Searching an appended list skips a prefix on which the predicate fails. -/
theorem find?_append_none {α : Type} (p : α → Bool) (l₂ : List α) :
    ∀ l₁ : List α, (∀ a ∈ l₁, p a = false) →
      (l₁ ++ l₂).find? p = l₂.find? p := by
  intro l₁
  induction l₁ with
  | nil => intro _; rfl
  | cons a rest ih =>
    intro h
    rw [List.cons_append, List.find?_cons_of_neg _ (by simp [h a (List.mem_cons_self a rest)])]
    exact ih (fun b hb => h b (List.mem_cons_of_mem a hb))

/-- Unchoking by handle, when the handle resolves to a peer that is currently
choking, clears that peer's `AmChoking` and appends an Unchoke message. -/
theorem unchokePeerByHandle_of_choked (h : Nat) (s : EngineState) (p : Peer)
    (hf : s.peers.find? (fun q => q.handle == h) = some p) (hch : p.AmChoking = true) :
    (unchokePeerByHandle h s).peers =
      s.peers.map (fun q => if q.handle == h then { q with AmChoking := false } else q) ∧
    (unchokePeerByHandle h s).sent = s.sent ++ [SessionMsg.unchokeMsg h] := by
  unfold unchokePeerByHandle
  simp [hf, hch]

/-- C1: the bitfield only grows over the event loop — every single dispatch
preserves existing bits and any new bit stems from that dispatch being the
successful write of exactly that (previously absent) piece; along any
successful run every bit of an intermediate state persists to the end; and
reporting a successful write of a piece whose bit is already set makes the
loop fail with the source's "already have the piece" panic, so the bit cannot
be set twice. -/
theorem claim_C1_bitfield_monotone (cfg : EngineConfig) :
    (∀ e s s', engineStep cfg e s = .ok s' →
        (∀ i ∈ s.bitfield, i ∈ s'.bitfield) ∧
        (∀ i, i ∉ s.bitfield → i ∈ s'.bitfield →
          e = EngineEvent.pieceWriterResult i true)) ∧
    (∀ s es₁ es₂ t₁ t₂, runEngineFrom cfg s es₁ = .ok t₁ →
        runEngineFrom cfg s (es₁ ++ es₂) = .ok t₂ →
        ∀ i ∈ t₁.bitfield, i ∈ t₂.bitfield) ∧
    (∀ s i, i ∈ s.bitfield →
        engineStep cfg (EngineEvent.pieceWriterResult i true) s =
          .error "already have the piece") := by
  refine ⟨?_, ?_, ?_⟩
  · intro e s s' hstep
    rcases engineStep_bitfield cfg e s s' hstep with hbf | ⟨j, hj, he, hbf⟩
    · constructor
      · intro i hi
        rw [hbf]
        exact hi
      · intro i hni hi
        rw [hbf] at hi
        exact absurd hi hni
    · constructor
      · intro i hi
        rw [hbf]
        exact Finset.mem_insert_of_mem hi
      · intro i hni hi
        rw [hbf] at hi
        rcases Finset.mem_insert.mp hi with h | h
        · subst h
          exact he
        · exact absurd h hni
  · intro s es₁ es₂ t₁ t₂ h1 h2 i hi
    rw [runEngineFrom_append cfg es₁ s es₂ t₁ h1] at h2
    exact runEngineFrom_mono cfg es₂ t₁ t₂ h2 i hi
  · intro s i hi
    simp [engineStep, hi]

/-- Witness for C1 at a concrete state: writing piece 1 on top of bitfield
`{0}` keeps bit 0, and re-reporting piece 0 errors out. -/
theorem claim_C1_witness :
    (∀ i ∈ c1State.bitfield, i ∈ c1After.bitfield) ∧
    engineStep engineCfgEx (EngineEvent.pieceWriterResult 0 true) c1State =
      .error "already have the piece" :=
  ⟨((claim_C1_bitfield_monotone engineCfgEx).1 (EngineEvent.pieceWriterResult 1 true)
      c1State c1After rfl).1,
   (claim_C1_bitfield_monotone engineCfgEx).2.2 c1State 0 (by decide)⟩

/-- C7: after any successful run of the event loop — hence at every quiescent
point, since every prefix of a run is a run — the maps `peers`, `peerIDs` and
`connectedPeerIPs` are mutually consistent: each connected peer's ID and IP are
recorded, each recorded ID belongs to a connected peer, and distinct peers have
distinct handles, IDs and IPs; `startPeer` (including its duplicate-ID
rejection path) and `closePeer` are the only peer-map writers and each loop
dispatch preserves the property. -/
theorem claim_C7_maps_consistent (cfg : EngineConfig) (es : List EngineEvent)
    (s : EngineState) (hrun : runEngine cfg es = .ok s) : mapsConsistent s :=
  (runEngineFrom_inv cfg es engineInit s engineInit_inv hrun).1

/-- Witness for C7: a concrete six-event run (two handshakes, a disconnect, an
unchoke tick) ends in a consistent state. -/
theorem claim_C7_witness :
    runEngine engineCfgEx c7Events = .ok c7Final ∧ mapsConsistent c7Final :=
  ⟨rfl, claim_C7_maps_consistent engineCfgEx c7Events c7Final rfl⟩

/-- C10: when an incoming handshake completes with a fresh peer ID and the
peer count after registration is at most 4, the dispatch immediately registers
the peer unchoked — its `AmChoking` is false and an Unchoke message is sent —
without any choke-scheduler tick occurring. -/
theorem claim_C10_immediate_unchoke (cfg : EngineConfig) (pid ip : Nat) (s : EngineState)
    (hinv : engineInv s) (hmem : ip ∈ s.incomingHandshakers)
    (hpid : pid ∉ s.peerIDs) (hlen : s.peers.length + 1 ≤ 4) :
    ∃ s', engineStep cfg (EngineEvent.incomingHSResult ip pid true) s = .ok s' ∧
      s'.peers.length = s.peers.length + 1 ∧
      (∃ p ∈ s'.peers, p.handle = s.nextHandle ∧ p.pid = pid ∧ p.AmChoking = false) ∧
      SessionMsg.unchokeMsg s.nextHandle ∈ s'.sent := by
  obtain ⟨⟨hfwd, hexact, hpar⟩, hhandle, hhs, hnd⟩ := hinv
  have hfind : ((s.peers ++ [freshPeer pid ip s.nextHandle]).find?
      (fun q => q.handle == s.nextHandle)) = some (freshPeer pid ip s.nextHandle) := by
    rw [find?_append_none _ _ s.peers ?_]
    · simp [freshPeer]
    · intro q hq
      simp only [beq_eq_false_iff_ne]
      exact Nat.ne_of_lt (hhandle q hq)
  have hstep : engineStep cfg (EngineEvent.incomingHSResult ip pid true) s =
      .ok (startPeer cfg pid ip true
        { s with incomingHandshakers := s.incomingHandshakers.erase ip }) := by
    simp [engineStep, hmem]
  have hlen2 : (startPeerAdd pid ip true
      { s with incomingHandshakers := s.incomingHandshakers.erase ip }).peers.length ≤ 4 := by
    show (s.peers ++ [freshPeer pid ip s.nextHandle]).length ≤ 4
    rw [List.length_append]
    simpa using hlen
  have hsp : startPeer cfg pid ip true
      { s with incomingHandshakers := s.incomingHandshakers.erase ip } =
      unchokePeerByHandle s.nextHandle (startPeerAdd pid ip true
        { s with incomingHandshakers := s.incomingHandshakers.erase ip }) := by
    unfold startPeer
    rw [if_neg hpid]
    dsimp only
    rw [if_pos hlen2]
  obtain ⟨hpeers, hsent⟩ := unchokePeerByHandle_of_choked s.nextHandle
    (startPeerAdd pid ip true
      { s with incomingHandshakers := s.incomingHandshakers.erase ip })
    (freshPeer pid ip s.nextHandle) hfind rfl
  refine ⟨unchokePeerByHandle s.nextHandle (startPeerAdd pid ip true
      { s with incomingHandshakers := s.incomingHandshakers.erase ip }),
    by rw [hstep, hsp], ?_, ?_, ?_⟩
  · rw [hpeers]
    show ((s.peers ++ [freshPeer pid ip s.nextHandle]).map _).length = s.peers.length + 1
    simp
  · refine ⟨{ freshPeer pid ip s.nextHandle with AmChoking := false }, ?_, rfl, rfl, rfl⟩
    rw [hpeers]
    refine List.mem_map.mpr ⟨freshPeer pid ip s.nextHandle, ?_, ?_⟩
    · exact List.mem_append.mpr (Or.inr (List.mem_singleton.mpr rfl))
    · simp [freshPeer]
  · rw [hsent]
    show SessionMsg.unchokeMsg s.nextHandle ∈
      (s.sent ++ [SessionMsg.firstMessage s.nextHandle]) ++ [SessionMsg.unchokeMsg s.nextHandle]
    simp

/-- Witness for C10: from a state with one pending incoming handshaker at IP 5
and no peers, a successful handshake with peer ID 42 yields one peer, unchoked
at the fresh handle, with the Unchoke message sent. -/
theorem claim_C10_witness :
    ∃ s', engineStep engineCfgEx (EngineEvent.incomingHSResult 5 42 true) c10State = .ok s' ∧
      s'.peers.length = c10State.peers.length + 1 ∧
      (∃ p ∈ s'.peers, p.handle = c10State.nextHandle ∧ p.pid = 42 ∧ p.AmChoking = false) ∧
      SessionMsg.unchokeMsg c10State.nextHandle ∈ s'.sent :=
  claim_C10_immediate_unchoke engineCfgEx 42 5 c10State
    (by refine ⟨⟨?_, ?_, ?_⟩, ?_, ?_, ?_⟩ <;> decide) (by decide) (by decide) (by decide)

end Rain
